import Mathlib

/-!
Verification of the Pied Piper LZ77 codec (src/engine/piedpiper_compress.c).

The C source is shallowly embedded below: machine integers are `Nat` with an
explicit `% 2^32` wherever the C `uint32_t` arithmetic could matter, buffers
are `List Nat`, the encoder hash table and prev-chain (C `int32_t` arrays with
`-1` as sentinel) are functions `Nat → Int`, and every C loop is a structural
recursion whose fuel is an upper bound on the number of iterations that the
loop itself enforces (the bound is stated at each definition).  Out-of-bounds
accesses, which are undefined behaviour in C, are tracked by explicit `oobIn`
(reads past the compressed input) and `oobOut` (accesses past the caller's
output capacity) flags; the fetched value for such an access is modelled as 0.
-/

/-- Bits of `v`, least significant first, `k` bits wide (LSB-first wire order). -/
def natBits (v : Nat) : Nat → List Bool
  | 0 => []
  | k + 1 => decide (v % 2 = 1) :: natBits (v / 2) k

/-- Value of an LSB-first bit list. -/
def bitsNat : List Bool → Nat
  | [] => 0
  | b :: bs => (if b then 1 else 0) + 2 * bitsNat bs

/-- Group an LSB-first bit list into bytes, keeping only complete 8-bit groups. -/
def toBytes : List Bool → List Nat
  | b0 :: b1 :: b2 :: b3 :: b4 :: b5 :: b6 :: b7 :: rest =>
      bitsNat [b0, b1, b2, b3, b4, b5, b6, b7] :: toBytes rest
  | _ => []

/-- The token bit stream the encoder emits for an all-literal encode: each
input byte becomes a `0` flag bit followed by its 8 value bits, LSB first. -/
def literalBits : List Nat → List Bool
  | [] => []
  | b :: bs => false :: (natBits b 8 ++ literalBits bs)

/-- Zero-pad an LSB-first bit list up to the next byte boundary. -/
def padBits (l : List Bool) : List Bool :=
  l ++ List.replicate ((8 - l.length % 8) % 8) false

/-- All bytes the bit writer would emit for bit list `l`, padding included. -/
def packAll (l : List Bool) : List Nat :=
  toBytes (padBits l)

/-- Little-endian byte-list view of a 32-bit value. -/
def u32le (v : Nat) : List Nat :=
  [v % 256, v / 256 % 256, v / 65536 % 256, v / 16777216 % 256]

/-- Read a little-endian u16 at byte offset `off` (out-of-range bytes read 0). -/
def readU16 (l : List Nat) (off : Nat) : Nat :=
  l.getD off 0 + 256 * l.getD (off + 1) 0

/-- Read a little-endian u32 at byte offset `off` (out-of-range bytes read 0). -/
def readU32 (l : List Nat) (off : Nat) : Nat :=
  l.getD off 0 + 256 * l.getD (off + 1) 0 + 65536 * l.getD (off + 2) 0
    + 16777216 * l.getD (off + 3) 0

/-- Store a u32 little-endian at byte offset `off` (models the header backpatch
`((PP_Header*)ctx->output)->compressed_size = ...`). -/
def setU32At (l : List Nat) (off v : Nat) : List Nat :=
  ((((l.set off (v % 256)).set (off + 1) (v / 256 % 256)).set
      (off + 2) (v / 65536 % 256)).set (off + 3) (v / 16777216 % 256))

/-- Store a u16 little-endian at byte offset `off` (models the header backpatch
of the `checksum` field). -/
def setU16At (l : List Nat) (off v : Nat) : List Nat :=
  (l.set off (v % 256)).set (off + 1) (v / 256 % 256)

/-- The additive checksum loop of the source: `checksum = (checksum + b) & 0xFFFF`. -/
def ppChecksum (l : List Nat) : Nat :=
  l.foldl (fun a b => (a + b) &&& 0xFFFF) 0

/-- Encoder-side context: the fields of `PP_Context` that carry behaviour.
`output` is the bytes written so far (so `output.length` is `output_pos`),
`outputSize` is the allocation size computed by `pp_init_context`.  The unused
Huffman trees and statistics arrays of the struct are omitted; the
`matches_found` counter is only ever printed and is omitted as well. -/
structure ECtx where
  input : List Nat
  output : List Nat
  outputSize : Nat
  hashTable : Nat → Int
  prev : Nat → Int

/-- `hash_func`: `((d0 << 10) ^ (d1 << 5) ^ d2) & HASH_MASK`. -/
def hashFunc (d0 d1 d2 : Nat) : Nat :=
  ((d0 <<< 10) ^^^ (d1 <<< 5) ^^^ d2) &&& 32767

/-- `pp_init_context`: output sized `input_size + input_size/10 + 1024` (a
`uint32_t` computation, hence the `% 2^32`), hash table and prev chain filled
with the sentinel `-1`. -/
def ppInitContext (input : List Nat) : ECtx :=
  { input := input
    output := []
    outputSize := (input.length + input.length / 10 + 1024) % 4294967296
    hashTable := fun _ => -1
    prev := fun _ => -1 }

/-- `pp_update_hash`: insert `pos` at the head of its fingerprint chain,
skipped when `pos + MIN_MATCH > input_size`. -/
def ppUpdateHash (c : ECtx) (pos : Nat) : ECtx :=
  if c.input.length < pos + 3 then c
  else
    let h := hashFunc (c.input.getD pos 0) (c.input.getD (pos + 1) 0) (c.input.getD (pos + 2) 0)
    { c with
      prev := fun i => if i = pos then c.hashTable h else c.prev i
      hashTable := fun i => if i = h then (pos : Int) else c.hashTable i }

/-- The match-extension loop of `pp_find_longest_match`:
`while (len < max_match && input[q+len] == input[pos+len]) len++`, written as
recursion on the remaining budget `max_match - len`. -/
def extendLen (inp : List Nat) (q p : Nat) : Nat → Nat
  | 0 => 0
  | fuel + 1 =>
    if inp.getD q 0 = inp.getD p 0 then extendLen inp (q + 1) (p + 1) fuel + 1
    else 0

/-- The chain walk of `pp_find_longest_match`.  The fuel parameter is the
source's own `chain_limit` counter (started at 128).  `cp` is `chain_pos`
(an `int32_t`, negative means end of chain); `bo`/`bl` are
`best_offset`/`best_len`.  `offset = pos - chain_pos` is `uint32_t`
subtraction, hence the `+ 2^32 ... % 2^32`. -/
def chainWalk (c : ECtx) (pos maxm : Nat) : Nat → Int → Nat → Nat → Nat × Nat
  | 0, _, bo, bl => (bo, bl)
  | fuel + 1, cp, bo, bl =>
    if cp < 0 then (bo, bl)
    else
      let q := cp.toNat
      let offset := (pos + 4294967296 - q % 4294967296) % 4294967296
      if 32768 < offset then (bo, bl)
      else if offset = 0 then (bo, bl)
      else if c.input.getD (q + bl) 0 = c.input.getD (pos + bl) 0 then
        let len := extendLen c.input q pos maxm
        if 3 ≤ len ∧ bl < len then
          if len = maxm then (offset, len)
          else chainWalk c pos maxm fuel (c.prev q) offset len
        else chainWalk c pos maxm fuel (c.prev q) bo bl
      else chainWalk c pos maxm fuel (c.prev q) bo bl

/-- `pp_find_longest_match`: returns `(offset, length)`, `(0, 0)` for no match. -/
def ppFindLongestMatch (c : ECtx) (pos : Nat) : Nat × Nat :=
  if c.input.length < pos + 3 then (0, 0)
  else
    let h := hashFunc (c.input.getD pos 0) (c.input.getD (pos + 1) 0) (c.input.getD (pos + 2) 0)
    let maxm := min (c.input.length - pos) 258
    let best := chainWalk c pos maxm 128 (c.hashTable h) 0 0
    if 3 ≤ best.2 then best else (0, 0)

/-- True for the bytes the `pp_detect_filetype` text heuristic counts. -/
def isTextByte (b : Nat) : Bool :=
  (decide (32 ≤ b) && decide (b ≤ 126)) || decide (b = 10) || decide (b = 13) || decide (b = 9)

/-- `pp_detect_filetype`.  The C text test `text_chars > sample_size * 0.9`
multiplies a `uint32_t` by the double nearest 0.9 (which is 0.9 + ε with
ε < 2.3e-17); for every `sample_size ≤ 1024` that comparison decides exactly
the integer inequality `10 * text_chars > 9 * sample_size`, which is how it is
written here. -/
def ppDetectFiletype (data : List Nat) : Nat :=
  if data.length < 4 then 0
  else if data.take 4 = [0x89, 0x50, 0x4E, 0x47] then 1
  else if data.take 3 = [0xFF, 0xD8, 0xFF] then 2
  else if data.take 4 = [0x47, 0x49, 0x46, 0x38] then 3
  else if data.take 4 = [0x50, 0x4B, 0x03, 0x04] then 4
  else if data.take 4 = [0x25, 0x50, 0x44, 0x46] then 5
  else
    let sample := min data.length 1024
    let textChars := ((data.take sample).filter isTextByte).length
    if 9 * sample < 10 * textChars then 10 else 0

/-- The bit writer's accumulator state.  In the C source these are the
function-local `static uint32_t bit_buffer` and `static uint8_t
bits_in_buffer` of `pp_write_bits`: process-global state that persists across
`pp_compress` invocations, so it is threaded explicitly. -/
structure WCtx where
  buf : Nat
  n : Nat
deriving DecidableEq

/-- The flush loop of `pp_write_bits`: `while (bits_in_buffer >= 8)` emit the
low byte if there is room (else the byte is silently dropped) and shift.
A call enters with at most 7 + 25 = 32 buffered bits, so the loop runs at
most 4 times; fuel 4 is exact. -/
def flushW : Nat → WCtx → ECtx → WCtx × ECtx
  | 0, w, c => (w, c)
  | fuel + 1, w, c =>
    if 8 ≤ w.n then
      let c' :=
        if c.output.length < c.outputSize then { c with output := c.output ++ [w.buf &&& 255] }
        else c
      flushW fuel ⟨w.buf >>> 8, w.n - 8⟩ c'
    else (w, c)

/-- `pp_write_bits`: or the new bits into the accumulator at the current
offset (`uint32_t`, hence `% 2^32`) and flush whole bytes. -/
def ppWriteBits (w : WCtx) (c : ECtx) (bits nb : Nat) : WCtx × ECtx :=
  flushW 4 ⟨(w.buf ||| (bits <<< w.n)) % 4294967296, w.n + nb⟩ c

/-- The `for (i = 1; i < match.length && pos + i < input_size; i++)` hash
re-insertion loop of the match branch of `pp_compress`; fuel = `match.length`
bounds the iteration count. -/
def updateManyGo (pos len : Nat) : Nat → Nat → ECtx → ECtx
  | 0, _, c => c
  | fuel + 1, i, c =>
    if i < len ∧ pos + i < c.input.length then
      updateManyGo pos len fuel (i + 1) (ppUpdateHash c (pos + i))
    else c

/-- Encoder loop state: the context plus the bit writer accumulator. -/
structure EncSt where
  ctx : ECtx
  w : WCtx

/-- The main `while (pos < input_size)` loop of `pp_compress`.  Every
iteration advances `pos` by at least 1 (a taken match has length ≥ 3), so
fuel = `input_size` bounds the iteration count. -/
def encodeLoop : Nat → Nat → EncSt → EncSt
  | 0, _, s => s
  | fuel + 1, pos, s =>
    if pos < s.ctx.input.length then
      let c1 := ppUpdateHash s.ctx pos
      let m := ppFindLongestMatch c1 pos
      if 3 ≤ m.2 then
        let r1 := ppWriteBits s.w c1 1 1
        let r2 := ppWriteBits r1.1 r1.2 m.1 15
        let r3 := ppWriteBits r2.1 r2.2 (m.2 - 3) 8
        let c5 := updateManyGo pos m.2 m.2 1 r3.2
        encodeLoop fuel (pos + m.2) ⟨c5, r3.1⟩
      else
        let r1 := ppWriteBits s.w c1 0 1
        let r2 := ppWriteBits r1.1 r1.2 (c1.input.getD pos 0) 8
        encodeLoop fuel (pos + 1) ⟨r2.2, r2.1⟩
    else s

/-- The 16 header bytes `pp_compress` writes before the token stream
(little-endian fields, layout of `PP_Header`): magic 0x5050, version 1.0,
`uncompressed_size`, then the `compressed_size` placeholder, level,
detected file type, and the `checksum` placeholder.  `compressed_size` and
`checksum` are uninitialised in the source at this point and are backpatched
before any output is released; they are modelled as 0. -/
def headerBytes (input : List Nat) (level : Nat) : List Nat :=
  [0x50, 0x50, 1, 0] ++ u32le (input.length % 4294967296) ++ [0, 0, 0, 0]
    ++ [level % 256, ppDetectFiletype input] ++ [0, 0]

/-- Result of `pp_compress`: the return code, the bytes copied to the caller
(empty unless the code is 0), the value left in `*output_size`, and the bit
writer's static accumulator state after the call. -/
structure CResult where
  code : Int
  bytes : List Nat
  outLen : Nat
  w : WCtx
deriving DecidableEq

/-- `pp_compress`.  `w0` is the state of `pp_write_bits`'s function-local
`static` variables when the call starts (all-zero at process start).
`callerCap` is the capacity the caller passes in `*output_size`. -/
def ppCompress (w0 : WCtx) (input : List Nat) (level callerCap : Nat) : CResult :=
  if input.length = 0 then ⟨-1, [], callerCap, w0⟩
  else
    let c0 := ppInitContext input
    let c1 := { c0 with output := headerBytes input level }
    let s := encodeLoop input.length 0 ⟨c1, w0⟩
    let wc :=
      if s.ctx.output.length < s.ctx.outputSize then ppWriteBits s.w s.ctx 0 7
      else (s.w, s.ctx)
    let out1 := setU32At wc.2.output 8 (wc.2.output.length % 4294967296)
    let out2 := setU16At out1 14 (ppChecksum input)
    if out2.length ≤ callerCap then ⟨0, out2, out2.length, wc.1⟩
    else ⟨-2, [], out2.length, wc.1⟩

/-- Bit reader state of `pp_decompress`: `in_ptr` (as an index into the whole
artifact), `bit_buffer`, `bits_available`, and a flag recording whether any
byte was fetched from past the end of the compressed input (undefined
behaviour in the C source; the fetched value is modelled as 0). -/
structure RSt where
  ptr : Nat
  bb : Nat
  av : Nat
  oobIn : Bool
deriving DecidableEq

/-- The refill loop of the `READ_BITS(n)` macro:
`while (bits_available < n) bit_buffer |= (*in_ptr++) << bits_available`.
Each fetch adds 8 bits and `n ≤ 15`, so at most 2 iterations run; fuel 2 is
exact. -/
def refill (inp : List Nat) (n : Nat) : Nat → RSt → RSt
  | 0, s => s
  | fuel + 1, s =>
    if s.av < n then
      refill inp n fuel
        { ptr := s.ptr + 1
          bb := (s.bb ||| (inp.getD s.ptr 0 <<< s.av)) % 4294967296
          av := s.av + 8
          oobIn := s.oobIn || decide (inp.length ≤ s.ptr) }
    else s

/-- `READ_BITS(n)`: refill, take the low `n` bits, shift them out. -/
def readBits (inp : List Nat) (n : Nat) (s : RSt) : Nat × RSt :=
  let t := refill inp n 2 s
  (t.bb &&& ((1 <<< n) - 1), { t with bb := t.bb >>> n, av := t.av - n })

/-- Decoder loop state: bit reader, `out_pos`, the caller's output buffer
(whose length is the declared capacity), and the out-of-capacity flag. -/
structure DSt where
  r : RSt
  op : Nat
  buf : List Nat
  oobOut : Bool
deriving DecidableEq

/-- The match copy `for (i = 0; i < length; i++) output[out_pos++] =
output[src_pos++]`, byte-ascending so self-overlap repeats.  `src_pos` is a
`uint32_t`, hence the wrap on increment.  Accesses at or past the buffer
capacity set `oobOut`. -/
def copyLoop : Nat → Nat → DSt → DSt
  | 0, _, d => d
  | len + 1, src, d =>
    let v := d.buf.getD src 0
    let d' : DSt :=
      { d with
        buf := d.buf.set d.op v
        oobOut := d.oobOut || decide (d.buf.length ≤ src) || decide (d.buf.length ≤ d.op)
        op := d.op + 1 }
    copyLoop len ((src + 1) % 4294967296) d'

/-- The `while (out_pos < header->uncompressed_size)` token loop of
`pp_decompress`.  Every iteration advances `out_pos` by at least 1 (a match
copies `length ≥ 3` bytes), so fuel = `uncompressed_size` bounds the
iteration count. -/
def decodeLoop (inp : List Nat) (usize : Nat) : Nat → DSt → DSt
  | 0, d => d
  | fuel + 1, d =>
    if d.op < usize then
      let f := readBits inp 1 d.r
      if f.1 = 1 then
        let o := readBits inp 15 f.2
        let l := readBits inp 8 o.2
        let length := l.1 + 3
        let src := (d.op + 4294967296 - o.1) % 4294967296
        let d' := copyLoop length src { d with r := l.2 }
        decodeLoop inp usize fuel d'
      else
        let l := readBits inp 8 f.2
        let d' : DSt :=
          { r := l.2
            buf := d.buf.set d.op l.1
            oobOut := d.oobOut || decide (d.buf.length ≤ d.op)
            op := d.op + 1 }
        decodeLoop inp usize fuel d'
    else d

/-- Result of `pp_decompress`: return code, the value left in
`*output_size`, the output buffer contents, and the two
undefined-behaviour flags. -/
structure DecResult where
  code : Int
  outLen : Nat
  buf : List Nat
  oobIn : Bool
  oobOut : Bool
deriving DecidableEq

/-- `pp_decompress`.  The caller's buffer is `outBuf` (its length is the
declared capacity passed in `*output_size`); its initial contents model the
uninitialised caller memory the C decoder can read from.  The decoder parses
only the header fields it uses: `magic`, `uncompressed_size`, `checksum`. -/
def ppDecompress (inp outBuf : List Nat) : DecResult :=
  if inp.length < 16 then ⟨-1, outBuf.length, outBuf, false, false⟩
  else if readU16 inp 0 ≠ 0x5050 then ⟨-1, outBuf.length, outBuf, false, false⟩
  else
    let usize := readU32 inp 4
    if outBuf.length < usize then ⟨-2, usize, outBuf, false, false⟩
    else
      let d := decodeLoop inp usize usize ⟨⟨16, 0, 0, false⟩, 0, outBuf, false⟩
      let ck := (List.range d.op).foldl (fun a i => (a + d.buf.getD i 0) &&& 0xFFFF) 0
      let oobOut := d.oobOut || decide (d.buf.length < d.op)
      if ck ≠ readU16 inp 14 then ⟨-3, d.op, d.buf, d.r.oobIn, oobOut⟩
      else ⟨0, d.op, d.buf, d.r.oobIn, oobOut⟩

/-! ### Bit-level facts used by the writer and reader simulations -/

theorem natBits_length (v : Nat) : ∀ k, (natBits v k).length = k := by
  intro k
  induction k generalizing v with
  | zero => rfl
  | succ k ih => simp [natBits, ih]

theorem natBits_zero : ∀ k, natBits 0 k = List.replicate k false
  | 0 => rfl
  | k + 1 => by simp [natBits, natBits_zero k, List.replicate_succ]

theorem bitsNat_lt : ∀ l : List Bool, bitsNat l < 2 ^ l.length
  | [] => Nat.one_pos
  | b :: bs => by
    have ih := bitsNat_lt bs
    simp only [bitsNat, List.length_cons, pow_succ]
    cases b <;> simp <;> omega

theorem bitsNat_append : ∀ a b : List Bool, bitsNat (a ++ b) = bitsNat a + 2 ^ a.length * bitsNat b
  | [], b => by simp [bitsNat]
  | x :: a, b => by
    show bitsNat (x :: (a ++ b)) = _
    simp only [bitsNat, List.length_cons, pow_succ]
    rw [bitsNat_append a b]
    ring

theorem bitsNat_replicate_false : ∀ k, bitsNat (List.replicate k false) = 0
  | 0 => rfl
  | k + 1 => by simp [List.replicate_succ, bitsNat, bitsNat_replicate_false k]

theorem bitsNat_append_zeros (l : List Bool) (k : Nat) :
    bitsNat (l ++ List.replicate k false) = bitsNat l := by
  simp [bitsNat_append, bitsNat_replicate_false]

theorem bitsNat_natBits (v : Nat) : ∀ k, bitsNat (natBits v k) = v % 2 ^ k := by
  intro k
  induction k generalizing v with
  | zero => simp [natBits, bitsNat, Nat.mod_one]
  | succ k ih =>
    simp only [natBits, bitsNat, ih]
    conv_rhs => rw [show ((2:Nat) ^ (k + 1)) = 2 * 2 ^ k by ring]
    rw [Nat.mod_mul]
    rcases Nat.mod_two_eq_zero_or_one v with h | h <;> simp [h]

theorem bitsNat_natBits_self (v k : Nat) (h : v < 2 ^ k) : bitsNat (natBits v k) = v := by
  rw [bitsNat_natBits, Nat.mod_eq_of_lt h]

theorem bitsNat_testBit : ∀ (l : List Bool) (j : Nat), (bitsNat l).testBit j = l.getD j false
  | [], j => by simp [bitsNat, Nat.zero_testBit]
  | b :: bs, 0 => by
    simp only [bitsNat, Nat.testBit_zero, List.getD_cons_zero]
    cases b <;> simp <;> omega
  | b :: bs, j + 1 => by
    have : ((if b then 1 else 0) + 2 * bitsNat bs) / 2 = bitsNat bs := by cases b <;> simp <;> omega
    simp only [bitsNat, Nat.testBit_add_one, this, bitsNat_testBit bs j, List.getD_cons_succ]

theorem toBytes_short : ∀ p : List Bool, p.length < 8 → toBytes p = []
  | [], _ => rfl
  | [_], _ => rfl
  | [_, _], _ => rfl
  | [_, _, _], _ => rfl
  | [_, _, _, _], _ => rfl
  | [_, _, _, _, _], _ => rfl
  | [_, _, _, _, _, _], _ => rfl
  | [_, _, _, _, _, _, _], _ => rfl
  | _ :: _ :: _ :: _ :: _ :: _ :: _ :: _ :: _, h => by simp at h; omega

theorem toBytes_length : ∀ p : List Bool, (toBytes p).length = p.length / 8
  | [] => rfl
  | [a] => by rw [toBytes_short _ (by simp)]; simp
  | [a, b] => by rw [toBytes_short _ (by simp)]; simp
  | [a, b, c] => by rw [toBytes_short _ (by simp)]; simp
  | [a, b, c, d] => by rw [toBytes_short _ (by simp)]; simp
  | [a, b, c, d, e] => by rw [toBytes_short _ (by simp)]; simp
  | [a, b, c, d, e, f] => by rw [toBytes_short _ (by simp)]; simp
  | [a, b, c, d, e, f, g] => by rw [toBytes_short _ (by simp)]; simp
  | b0 :: b1 :: b2 :: b3 :: b4 :: b5 :: b6 :: b7 :: rest => by
    show (bitsNat [b0, b1, b2, b3, b4, b5, b6, b7] :: toBytes rest).length = _
    simp only [List.length_cons, toBytes_length rest]
    omega

theorem toBytes_append8 : ∀ a b : List Bool, 8 ∣ a.length → toBytes (a ++ b) = toBytes a ++ toBytes b
  | [], _, _ => rfl
  | [_], _, h => by simp at h
  | [_, _], _, h => by simp at h; omega
  | [_, _, _], _, h => by simp at h; omega
  | [_, _, _, _], _, h => by simp at h; omega
  | [_, _, _, _, _], _, h => by simp at h; omega
  | [_, _, _, _, _, _], _, h => by simp at h; omega
  | [_, _, _, _, _, _, _], _, h => by simp at h; omega
  | b0 :: b1 :: b2 :: b3 :: b4 :: b5 :: b6 :: b7 :: rest, b, h => by
    show toBytes (b0 :: b1 :: b2 :: b3 :: b4 :: b5 :: b6 :: b7 :: (rest ++ b)) = _
    show bitsNat [b0, b1, b2, b3, b4, b5, b6, b7] :: toBytes (rest ++ b) = _
    rw [toBytes_append8 rest b (by simp at h; omega)]
    rfl

theorem toBytes_testBit :
    ∀ (p : List Bool) (i : Nat), i < 8 * ((toBytes p).length) →
      ((toBytes p).getD (i / 8) 0).testBit (i % 8) = p.getD i false
  | [], i, h => by simp [toBytes] at h
  | [_], i, h => by rw [toBytes_short _ (by simp)] at h; simp at h
  | [_, _], i, h => by rw [toBytes_short _ (by simp)] at h; simp at h
  | [_, _, _], i, h => by rw [toBytes_short _ (by simp)] at h; simp at h
  | [_, _, _, _], i, h => by rw [toBytes_short _ (by simp)] at h; simp at h
  | [_, _, _, _, _], i, h => by rw [toBytes_short _ (by simp)] at h; simp at h
  | [_, _, _, _, _, _], i, h => by rw [toBytes_short _ (by simp)] at h; simp at h
  | [_, _, _, _, _, _, _], i, h => by rw [toBytes_short _ (by simp)] at h; simp at h
  | b0 :: b1 :: b2 :: b3 :: b4 :: b5 :: b6 :: b7 :: rest, i, h => by
    by_cases hi : i < 8
    · have h0 : i / 8 = 0 := by omega
      have hm : i % 8 = i := by omega
      rw [h0, hm]
      show ((bitsNat [b0, b1, b2, b3, b4, b5, b6, b7] :: toBytes rest).getD 0 0).testBit i = _
      rw [List.getD_cons_zero, bitsNat_testBit]
      interval_cases i <;> rfl
    · have h8 : i / 8 = (i - 8) / 8 + 1 := by omega
      have h8m : i % 8 = (i - 8) % 8 := by omega
      have hlt : i - 8 < 8 * (toBytes rest).length := by
        have hl : toBytes (b0 :: b1 :: b2 :: b3 :: b4 :: b5 :: b6 :: b7 :: rest)
            = bitsNat [b0, b1, b2, b3, b4, b5, b6, b7] :: toBytes rest := rfl
        rw [hl, List.length_cons] at h; omega
      have ihr := toBytes_testBit rest (i - 8) hlt
      have hl : toBytes (b0 :: b1 :: b2 :: b3 :: b4 :: b5 :: b6 :: b7 :: rest)
          = bitsNat [b0, b1, b2, b3, b4, b5, b6, b7] :: toBytes rest := rfl
      rw [hl, h8, h8m, List.getD_cons_succ, ihr]
      have hstep : ∀ j, (b0 :: b1 :: b2 :: b3 :: b4 :: b5 :: b6 :: b7 :: rest).getD (j + 8) false
          = rest.getD j false := by intro j; simp [List.getD_cons_succ]
      rw [show i = (i - 8) + 8 by omega, hstep]
      congr 1 <;> omega

/-! ### Bit writer simulation -/

theorem toBytes_len8 : ∀ l : List Bool, l.length = 8 → toBytes l = [bitsNat l]
  | [], h => by simp at h
  | [_], h => by simp at h
  | [_, _], h => by simp at h
  | [_, _, _], h => by simp at h
  | [_, _, _, _], h => by simp at h
  | [_, _, _, _, _], h => by simp at h
  | [_, _, _, _, _, _], h => by simp at h
  | [_, _, _, _, _, _, _], h => by simp at h
  | b0 :: b1 :: b2 :: b3 :: b4 :: b5 :: b6 :: b7 :: rest, h => by
    have : rest = [] := by
      cases rest with
      | nil => rfl
      | cons x xs => simp at h
    subst this
    rfl

theorem take_one_of_pos {α : Type} (x : α) (n : Nat) (h : 1 ≤ n) : List.take n [x] = [x] := by
  cases n with
  | zero => omega
  | succ m => simp

/-- Invariant of the bit writer relative to the abstract bit stream `bits`
appended since the 16-byte header was written: the accumulator holds the
bits past the last full byte, and the context's output is the header followed
by the capacity-truncated packed bytes. -/
def WInv (w : WCtx) (c : ECtx) (hdr : List Nat) (bits : List Bool) : Prop :=
  w.n = bits.length % 8 ∧
  w.buf = bitsNat (bits.drop (8 * (bits.length / 8))) ∧
  c.output = hdr ++ (toBytes bits).take (c.outputSize - 16) ∧
  hdr.length = 16 ∧ 16 ≤ c.outputSize

theorem flushW_fields : ∀ (fuel : Nat) (w : WCtx) (c : ECtx),
    (flushW fuel w c).2.input = c.input ∧ (flushW fuel w c).2.outputSize = c.outputSize ∧
    (flushW fuel w c).2.hashTable = c.hashTable ∧ (flushW fuel w c).2.prev = c.prev := by
  intro fuel
  induction fuel with
  | zero =>
    intro w c
    refine ⟨?_, ?_, ?_, ?_⟩ <;> rfl
  | succ fuel ih =>
    intro w c
    rw [flushW]
    by_cases h8 : 8 ≤ w.n
    · simp only [if_pos h8]
      by_cases hr : c.output.length < c.outputSize
      · simp only [if_pos hr]
        exact ih _ _
      · simp only [if_neg hr]
        exact ih _ _
    · simp [if_neg h8]

theorem flushW_spec : ∀ (fuel : Nat) (P done : List Bool) (c : ECtx) (hdr : List Nat),
    P.length < 8 * fuel + 8 →
    8 ∣ done.length →
    c.output = hdr ++ (toBytes done).take (c.outputSize - 16) →
    hdr.length = 16 → 16 ≤ c.outputSize →
    (flushW fuel ⟨bitsNat P, P.length⟩ c).1 =
        ⟨bitsNat (P.drop (8 * (P.length / 8))), P.length % 8⟩ ∧
    (flushW fuel ⟨bitsNat P, P.length⟩ c).2.output =
        hdr ++ (toBytes (done ++ P)).take (c.outputSize - 16) := by
  intro fuel
  induction fuel with
  | zero =>
    intro P done c hdr hP hdvd hout hhdr hsz
    have hP8 : P.length < 8 := by omega
    have h1 : P.length / 8 = 0 := by omega
    have h2 : P.length % 8 = P.length := by omega
    have h3 : toBytes (done ++ P) = toBytes done := by
      rw [toBytes_append8 done P hdvd, toBytes_short P hP8, List.append_nil]
    refine ⟨by simp [flushW, h1, h2], ?_⟩
    simp only [flushW, h3]
    exact hout
  | succ fuel ih =>
    intro P done c hdr hP hdvd hout hhdr hsz
    by_cases h8 : 8 ≤ P.length
    · have hsplit : P.take 8 ++ P.drop 8 = P := List.take_append_drop 8 P
      have ht8len : (P.take 8).length = 8 := by simp; omega
      have hrestlen : (P.drop 8).length = P.length - 8 := by simp
      have hval : bitsNat P = bitsNat (P.take 8) + 256 * bitsNat (P.drop 8) := by
        conv_lhs => rw [← hsplit]
        rw [bitsNat_append, ht8len]
        norm_num
      have ht8lt : bitsNat (P.take 8) < 256 := by
        have h := bitsNat_lt (P.take 8)
        rw [ht8len] at h
        exact h
      have hbyte : bitsNat P &&& 255 = bitsNat (P.take 8) := by
        rw [show (255 : Nat) = 2 ^ 8 - 1 by norm_num, Nat.and_pow_two_sub_one_eq_mod]
        omega
      have hshift : bitsNat P >>> 8 = bitsNat (P.drop 8) := by
        rw [Nat.shiftRight_eq_div_pow]
        omega
      have htb : toBytes (done ++ P.take 8) = toBytes done ++ [bitsNat (P.take 8)] := by
        rw [toBytes_append8 done _ hdvd, toBytes_len8 _ ht8len]
      have hlen : c.output.length = 16 + min (c.outputSize - 16) (toBytes done).length := by
        rw [hout]
        simp [hhdr]
      have hstep : (if c.output.length < c.outputSize then
            { c with output := c.output ++ [bitsNat P &&& 255] } else c).output
          = hdr ++ (toBytes (done ++ P.take 8)).take (c.outputSize - 16) := by
        by_cases hroom : (toBytes done).length < c.outputSize - 16
        · rw [if_pos (by omega)]
          show c.output ++ [bitsNat P &&& 255] = _
          rw [hbyte, hout, htb, List.take_append_eq_append_take,
            List.take_of_length_le (by omega), take_one_of_pos _ _ (by omega),
            List.append_assoc]
        · rw [if_neg (by omega)]
          show c.output = _
          rw [hout, htb, List.take_append_eq_append_take,
            show c.outputSize - 16 - (toBytes done).length = 0 by omega,
            List.take_zero, List.append_nil]
      have hstepsz : (if c.output.length < c.outputSize then
            { c with output := c.output ++ [bitsNat P &&& 255] } else c).outputSize
          = c.outputSize := by
        by_cases hr : c.output.length < c.outputSize
        · rw [if_pos hr]
        · rw [if_neg hr]
      rw [flushW]
      simp only [if_pos (show 8 ≤ (⟨bitsNat P, P.length⟩ : WCtx).n from h8)]
      have harg : ∀ w : WCtx, w = ⟨bitsNat P, P.length⟩ →
          (⟨w.buf >>> 8, w.n - 8⟩ : WCtx) = ⟨bitsNat (P.drop 8), (P.drop 8).length⟩ := by
        intro w hw
        subst hw
        show (⟨bitsNat P >>> 8, P.length - 8⟩ : WCtx) = _
        rw [hshift, hrestlen]
      rw [harg _ rfl]
      have hrec := ih (P.drop 8) (done ++ P.take 8)
        (if c.output.length < c.outputSize then
            { c with output := c.output ++ [bitsNat P &&& 255] } else c) hdr
        (by rw [hrestlen]; omega)
        (by rw [List.length_append, ht8len]; omega)
        (by rw [hstep, hstepsz])
        hhdr (by rw [hstepsz]; exact hsz)
      rcases hrec with ⟨hw, ho⟩
      constructor
      · rw [hw]
        have e1 : (P.drop 8).drop (8 * ((P.drop 8).length / 8)) = P.drop (8 * (P.length / 8)) := by
          rw [List.drop_drop, hrestlen]
          congr 1
          omega
        have e2 : (P.drop 8).length % 8 = P.length % 8 := by rw [hrestlen]; omega
        rw [e1, e2]
      · rw [ho, hstepsz, List.append_assoc, hsplit]
    · have hP8 : P.length < 8 := by omega
      have h1 : P.length / 8 = 0 := by omega
      have h2 : P.length % 8 = P.length := by omega
      have h3 : toBytes (done ++ P) = toBytes done := by
        rw [toBytes_append8 done P hdvd, toBytes_short P hP8, List.append_nil]
      rw [flushW]
      simp only [if_neg (show ¬ 8 ≤ (⟨bitsNat P, P.length⟩ : WCtx).n from h8)]
      refine ⟨by simp [h1, h2], ?_⟩
      rw [h3]
      exact hout

theorem ppWriteBits_spec (w : WCtx) (c : ECtx) (hdr : List Nat) (bits : List Bool)
    (v k : Nat) (hI : WInv w c hdr bits) (hv : v < 2 ^ k) (hk : k ≤ 25) :
    WInv (ppWriteBits w c v k).1 (ppWriteBits w c v k).2 hdr (bits ++ natBits v k) ∧
    (ppWriteBits w c v k).2.input = c.input ∧
    (ppWriteBits w c v k).2.outputSize = c.outputSize ∧
    (ppWriteBits w c v k).2.hashTable = c.hashTable ∧
    (ppWriteBits w c v k).2.prev = c.prev := by
  obtain ⟨hn, hbuf, hout, hhdr, hsz⟩ := hI
  set L := bits.length with hL
  set pending := bits.drop (8 * (L / 8)) with hpend
  set done := bits.take (8 * (L / 8)) with hdone
  have hdp : done ++ pending = bits := List.take_append_drop _ _
  have hplen : pending.length = L % 8 := by
    rw [hpend, List.length_drop]
    omega
  have hdlen : done.length = 8 * (L / 8) := by
    rw [hdone, List.length_take]
    simp [hL]
    omega
  have hdvd : 8 ∣ done.length := by rw [hdlen]; exact Dvd.intro _ rfl
  have hplt : bitsNat pending < 2 ^ (L % 8) := by
    have h := bitsNat_lt pending
    rwa [hplen] at h
  set P := pending ++ natBits v k with hP
  have hPlen : P.length = L % 8 + k := by
    rw [hP, List.length_append, hplen, natBits_length]
  have hPval : bitsNat P = bitsNat pending + 2 ^ (L % 8) * v := by
    rw [hP, bitsNat_append, hplen, bitsNat_natBits_self v k hv]
  have hor : (w.buf ||| (v <<< w.n)) % 4294967296 = bitsNat P := by
    rw [hbuf, hn, Nat.shiftLeft_eq, Nat.lor_comm,
      show v * 2 ^ (L % 8) = 2 ^ (L % 8) * v by ring,
      ← Nat.mul_add_lt_is_or hplt v]
    have hlt : 2 ^ (L % 8) * v + bitsNat pending < 4294967296 := by
      have h1 : bitsNat pending < 2 ^ (L % 8) := hplt
      have h2 : v < 2 ^ k := hv
      have h3 : 2 ^ (L % 8) * v + bitsNat pending < 2 ^ (L % 8) * 2 ^ k := by
        have hv1 : v + 1 ≤ 2 ^ k := hv
        calc 2 ^ (L % 8) * v + bitsNat pending < 2 ^ (L % 8) * v + 2 ^ (L % 8) := by omega
          _ = 2 ^ (L % 8) * (v + 1) := by ring
          _ ≤ 2 ^ (L % 8) * 2 ^ k := Nat.mul_le_mul_left _ hv1
      have h5 : (2 : Nat) ^ (L % 8) * 2 ^ k ≤ 2 ^ 32 := by
        rw [← pow_add]
        have : L % 8 + k ≤ 32 := by omega
        exact Nat.pow_le_pow_right (by omega) this
      omega
    rw [Nat.mod_eq_of_lt hlt, hPval]
    ring
  have hwn : w.n + k = P.length := by rw [hPlen, hn]
  have hww : ppWriteBits w c v k = flushW 4 ⟨bitsNat P, P.length⟩ c := by
    rw [ppWriteBits, hor, hwn]
  have hco : c.output = hdr ++ (toBytes done).take (c.outputSize - 16) := by
    rw [hout]
    congr 2
    conv_lhs => rw [← hdp]
    rw [toBytes_append8 done pending hdvd, toBytes_short pending (by omega), List.append_nil]
  have hfl := flushW_spec 4 P done c hdr (by rw [hPlen]; omega) hdvd hco hhdr hsz
  have hfields := flushW_fields 4 ⟨bitsNat P, P.length⟩ c
  rcases hfl with ⟨hw, ho⟩
  rw [hww]
  refine ⟨⟨?_, ?_, ?_, hhdr, ?_⟩, hfields.1, hfields.2.1, hfields.2.2.1, hfields.2.2.2⟩
  · rw [hw]
    show P.length % 8 = _
    rw [hPlen, List.length_append, natBits_length]
    omega
  · rw [hw]
    show bitsNat (P.drop (8 * (P.length / 8))) = _
    have hbl : (bits ++ natBits v k).length = L + k := by
      rw [List.length_append, natBits_length, hL]
    rw [hbl]
    have hsplit2 : bits ++ natBits v k = done ++ P := by
      rw [hP, ← List.append_assoc, hdp]
    rw [hsplit2]
    have hge : done.length ≤ 8 * ((L + k) / 8) := by
      rw [hdlen]
      omega
    have hdrop : (done ++ P).drop (8 * ((L + k) / 8))
        = P.drop (8 * ((L + k) / 8) - done.length) := by
      rw [show 8 * ((L + k) / 8) = done.length + (8 * ((L + k) / 8) - done.length) by omega,
        List.drop_append]
      congr 1
      omega
    rw [hdrop]
    have hidx : 8 * ((L + k) / 8) - done.length = 8 * (P.length / 8) := by
      rw [hdlen, hPlen]
      omega
    rw [hidx]
  · rw [ho, hfields.2.1]
    congr 2
    rw [hP, ← List.append_assoc, hdp]
  · rw [hfields.2.1]
    exact hsz

/-! ### The encoder emits only literals: `pp_compress` inserts `pos` into its
hash chain immediately before searching at `pos`, so the chain head is `pos`
itself, the first candidate offset is 0, and the walk stops with no match. -/

theorem ppUpdateHash_fields (c : ECtx) (pos : Nat) :
    (ppUpdateHash c pos).output = c.output ∧ (ppUpdateHash c pos).outputSize = c.outputSize ∧
    (ppUpdateHash c pos).input = c.input := by
  rw [ppUpdateHash]
  split
  · refine ⟨rfl, rfl, rfl⟩
  · refine ⟨rfl, rfl, rfl⟩

theorem find_after_update (c : ECtx) (pos : Nat) (hpos : pos < 4294967296) :
    ppFindLongestMatch (ppUpdateHash c pos) pos = (0, 0) := by
  by_cases hshort : c.input.length < pos + 3
  · rw [ppUpdateHash, if_pos hshort, ppFindLongestMatch, if_pos hshort]
  · rw [ppUpdateHash, if_neg hshort, ppFindLongestMatch]
    dsimp only
    rw [if_neg hshort]
    have hcp : (if hashFunc (c.input.getD pos 0) (c.input.getD (pos + 1) 0) (c.input.getD (pos + 2) 0)
        = hashFunc (c.input.getD pos 0) (c.input.getD (pos + 1) 0) (c.input.getD (pos + 2) 0)
        then (pos : Int) else c.hashTable (hashFunc (c.input.getD pos 0) (c.input.getD (pos + 1) 0) (c.input.getD (pos + 2) 0))) = (pos : Int) := by
      rw [if_pos rfl]
    rw [hcp]
    rw [chainWalk]
    rw [if_neg (by omega : ¬ (pos : Int) < 0)]
    simp only [Int.toNat_natCast]
    rw [Nat.mod_eq_of_lt hpos]
    rw [show pos + 4294967296 - pos = 4294967296 by omega]
    norm_num

theorem WInv_congr (w : WCtx) (c c' : ECtx) (hdr : List Nat) (bits : List Bool)
    (ho : c'.output = c.output) (hs : c'.outputSize = c.outputSize)
    (hI : WInv w c hdr bits) : WInv w c' hdr bits := by
  obtain ⟨h1, h2, h3, h4, h5⟩ := hI
  exact ⟨h1, h2, by rw [ho, hs, h3], h4, by rw [hs]; exact h5⟩

theorem natBits_zero_one : natBits 0 1 = [false] := rfl

theorem encodeLoop_lits : ∀ (k pos : Nat) (s : EncSt) (hdr : List Nat) (bits : List Bool),
    s.ctx.input.length = pos + k →
    (∀ b ∈ s.ctx.input, b < 256) →
    s.ctx.input.length < 4294967296 →
    WInv s.w s.ctx hdr bits →
    WInv (encodeLoop k pos s).w (encodeLoop k pos s).ctx hdr
        (bits ++ literalBits (s.ctx.input.drop pos)) ∧
    (encodeLoop k pos s).ctx.input = s.ctx.input ∧
    (encodeLoop k pos s).ctx.outputSize = s.ctx.outputSize := by
  intro k
  induction k with
  | zero =>
    intro pos s hdr bits hlen hb hsz hI
    rw [encodeLoop]
    rw [List.drop_of_length_le (by omega), literalBits, List.append_nil]
    exact ⟨hI, rfl, rfl⟩
  | succ k ih =>
    intro pos s hdr bits hlen hb hsz hI
    have hposlt : pos < s.ctx.input.length := by omega
    rw [encodeLoop]
    rw [if_pos hposlt]
    dsimp only
    rw [find_after_update s.ctx pos (by omega)]
    rw [if_neg (by norm_num)]
    have hc1 := ppUpdateHash_fields s.ctx pos
    have hI1 : WInv s.w (ppUpdateHash s.ctx pos) hdr bits :=
      WInv_congr _ _ _ _ _ hc1.1 hc1.2.1 hI
    have hw1 := ppWriteBits_spec s.w (ppUpdateHash s.ctx pos) hdr bits 0 1 hI1
      (by norm_num) (by norm_num)
    set r1 := ppWriteBits s.w (ppUpdateHash s.ctx pos) 0 1 with hr1
    have hr1in : r1.2.input = s.ctx.input := by rw [hw1.2.1, hc1.2.2]
    have hbv : s.ctx.input.getD pos 0 < 256 := by
      rw [List.getD_eq_getElem _ _ hposlt]
      exact hb _ (List.getElem_mem hposlt)
    have hw2 := ppWriteBits_spec r1.1 r1.2 hdr (bits ++ natBits 0 1)
      ((ppUpdateHash s.ctx pos).input.getD pos 0) 8 hw1.1
      (by rw [hc1.2.2]; exact hbv) (by norm_num)
    set r2 := ppWriteBits r1.1 r1.2 ((ppUpdateHash s.ctx pos).input.getD pos 0) 8 with hr2
    have hr2in : r2.2.input = s.ctx.input := by rw [hw2.2.1, hr1in]
    have hrec := ih (pos + 1) ⟨r2.2, r2.1⟩ hdr (bits ++ natBits 0 1
        ++ natBits ((ppUpdateHash s.ctx pos).input.getD pos 0) 8)
      (by show r2.2.input.length = pos + 1 + k; rw [hr2in]; omega)
      (by show ∀ b ∈ r2.2.input, b < 256; rw [hr2in]; exact hb)
      (by show r2.2.input.length < 4294967296; rw [hr2in]; omega)
      (by exact hw2.1)
    have hdropeq : literalBits (s.ctx.input.drop pos)
        = natBits 0 1 ++ natBits ((ppUpdateHash s.ctx pos).input.getD pos 0) 8
          ++ literalBits (s.ctx.input.drop (pos + 1)) := by
      rw [List.drop_eq_getElem_cons hposlt, literalBits, natBits_zero_one, hc1.2.2,
        List.getD_eq_getElem _ _ hposlt]
      simp
    refine ⟨?_, ?_, ?_⟩
    · rw [hdropeq]
      have := hrec.1
      rw [hr2in] at this
      rw [show bits ++ (natBits 0 1 ++ natBits ((ppUpdateHash s.ctx pos).input.getD pos 0) 8
          ++ literalBits (s.ctx.input.drop (pos + 1)))
        = bits ++ natBits 0 1 ++ natBits ((ppUpdateHash s.ctx pos).input.getD pos 0) 8
          ++ literalBits (s.ctx.input.drop (pos + 1)) by simp [List.append_assoc]]
      exact this
    · rw [hrec.2.1]
      show r2.2.input = _
      exact hr2in
    · rw [hrec.2.2]
      show r2.2.outputSize = _
      rw [hw2.2.2.1, hw1.2.2.1, hc1.2.1]

/-! ### What `pp_compress` produces: header, all-literal body, backpatches -/

theorem toBytes_seven_pad (l : List Bool) :
    toBytes (l ++ List.replicate 7 false) = packAll l := by
  set L := l.length with hL
  set done := l.take (8 * (L / 8)) with hdone
  set pending := l.drop (8 * (L / 8)) with hpend
  have hdp : done ++ pending = l := List.take_append_drop _ _
  have hplen : pending.length = L % 8 := by
    rw [hpend, List.length_drop]
    omega
  have hdlen : done.length = 8 * (L / 8) := by
    rw [hdone, List.length_take]
    simp [hL]
    omega
  have hdvd : 8 ∣ done.length := by rw [hdlen]; exact Dvd.intro _ rfl
  rw [packAll, padBits]
  set m := (8 - l.length % 8) % 8 with hm
  have hmv : m = (8 - L % 8) % 8 := by rw [hm, hL]
  conv_lhs => rw [← hdp, List.append_assoc]
  conv_rhs => rw [← hdp, List.append_assoc]
  rw [toBytes_append8 done _ hdvd, toBytes_append8 done _ hdvd]
  congr 1
  by_cases hr : L % 8 = 0
  · have hpnil : pending = [] := List.length_eq_zero.mp (by omega)
    have hm0 : m = 0 := by omega
    rw [hpnil, hm0]
    norm_num
    rw [toBytes_short _ (by simp)]
    rfl
  · have h8r : m = 8 - L % 8 := by omega
    rw [h8r]
    have hsplit7 : List.replicate 7 (false : Bool)
        = List.replicate (8 - L % 8) false ++ List.replicate (7 - (8 - L % 8)) false := by
      rw [← List.replicate_add]
      congr 1
      omega
    rw [hsplit7, ← List.append_assoc]
    rw [toBytes_append8 (pending ++ List.replicate (8 - L % 8) false) _
      (by rw [List.length_append, hplen, List.length_replicate]; omega)]
    rw [toBytes_short (List.replicate (7 - (8 - L % 8)) false)
      (by rw [List.length_replicate]; omega), List.append_nil]

theorem headerBytes_length (B : List Nat) (level : Nat) : (headerBytes B level).length = 16 := by
  simp [headerBytes, u32le]

theorem setU32At_length (l : List Nat) (off v : Nat) : (setU32At l off v).length = l.length := by
  simp [setU32At]

theorem setU16At_length (l : List Nat) (off v : Nat) : (setU16At l off v).length = l.length := by
  simp [setU16At]

theorem literalBits_length : ∀ B : List Nat, (literalBits B).length = 9 * B.length
  | [] => rfl
  | b :: bs => by
    simp only [literalBits, List.length_cons, List.length_append, natBits_length,
      literalBits_length bs]
    omega

/-- The body bytes of the artifact `pp_compress` builds internally: the packed
all-literal token stream, truncated to the internal allocation. -/
def ppBody (B : List Nat) : List Nat :=
  (packAll (literalBits B)).take (B.length + B.length / 10 + 1024 - 16)

/-- The full artifact `pp_compress` builds internally (and copies out when the
caller's capacity suffices): provisional header plus body, with the
`compressed_size` and `checksum` fields backpatched. -/
def ppArtifact (B : List Nat) (level : Nat) : List Nat :=
  setU16At (setU32At (headerBytes B level ++ ppBody B) 8 ((16 + (ppBody B).length) % 4294967296))
    14 (ppChecksum B)

theorem ppArtifact_length (B : List Nat) (level : Nat) :
    (ppArtifact B level).length = 16 + (ppBody B).length := by
  rw [ppArtifact, setU16At_length, setU32At_length, List.length_append, headerBytes_length]

theorem packAll_take (l : List Bool) (n : Nat) (h : n ≤ (toBytes l).length) :
    (packAll l).take n = (toBytes l).take n := by
  set L := l.length with hL
  set done := l.take (8 * (L / 8)) with hdone
  set pending := l.drop (8 * (L / 8)) with hpend
  have hdp : done ++ pending = l := List.take_append_drop _ _
  have hplen : pending.length = L % 8 := by
    rw [hpend, List.length_drop]
    omega
  have hdlen : done.length = 8 * (L / 8) := by
    rw [hdone, List.length_take]
    simp [hL]
    omega
  have hdvd : 8 ∣ done.length := by rw [hdlen]; exact Dvd.intro _ rfl
  have htb : toBytes l = toBytes done := by
    conv_lhs => rw [← hdp]
    rw [toBytes_append8 done pending hdvd, toBytes_short pending (by omega), List.append_nil]
  have hpa : packAll l = toBytes done ++ toBytes (pending ++ List.replicate ((8 - l.length % 8) % 8) false) := by
    rw [packAll, padBits]
    set m := (8 - l.length % 8) % 8 with hm
    conv_lhs => rw [← hdp, List.append_assoc]
    rw [toBytes_append8 done _ hdvd]
  rw [hpa, htb]
  rw [htb] at h
  rw [List.take_append_of_le_length h]

theorem ppCompress_spec (B : List Nat) (level cap : Nat)
    (hne : B ≠ []) (hb : ∀ b ∈ B, b < 256) (hsz : B.length < 2147483648) :
    (ppCompress ⟨0, 0⟩ B level cap).outLen = 16 + (ppBody B).length ∧
    (ppCompress ⟨0, 0⟩ B level cap).code = (if 16 + (ppBody B).length ≤ cap then 0 else -2) ∧
    (16 + (ppBody B).length ≤ cap → (ppCompress ⟨0, 0⟩ B level cap).bytes = ppArtifact B level) := by
  have hN : B.length ≠ 0 := fun h => hne (List.length_eq_zero.mp h)
  have hsz32 : B.length + B.length / 10 + 1024 < 4294967296 := by omega
  rw [ppCompress, if_neg hN]
  dsimp only
  set hdr := headerBytes B level with hhdrdef
  have hhdrlen : hdr.length = 16 := headerBytes_length B level
  set c1 : ECtx := { ppInitContext B with output := hdr } with hc1
  have hc1sz : c1.outputSize = B.length + B.length / 10 + 1024 := by
    show (B.length + B.length / 10 + 1024) % 4294967296 = _
    exact Nat.mod_eq_of_lt hsz32
  have hI0 : WInv ⟨0, 0⟩ c1 hdr [] := by
    refine ⟨rfl, rfl, ?_, hhdrlen, by omega⟩
    show hdr = hdr ++ (toBytes []).take (c1.outputSize - 16)
    rw [toBytes_short [] (by simp), List.take_nil, List.append_nil]
  have hloop := encodeLoop_lits B.length 0 ⟨c1, ⟨0, 0⟩⟩ hdr []
    (by show B.length = 0 + B.length; omega)
    (by show ∀ b ∈ B, b < 256; exact hb)
    (by show B.length < 4294967296; omega)
    hI0
  set s := encodeLoop B.length 0 ⟨c1, ⟨0, 0⟩⟩ with hs
  rw [List.nil_append, show (⟨c1, ⟨0, 0⟩⟩ : EncSt).ctx.input = B from rfl, List.drop_zero] at hloop
  set bits := literalBits B with hbits
  obtain ⟨hIs, hsin, hsosz⟩ := hloop
  obtain ⟨hsn, hsbuf, hsout, _, hssz⟩ := hIs
  have hssize : s.ctx.outputSize = B.length + B.length / 10 + 1024 := by
    rw [hsosz]
    show c1.outputSize = _
    exact hc1sz
  have hol : s.ctx.output.length
      = 16 + min (s.ctx.outputSize - 16) (toBytes bits).length := by
    rw [hsout, List.length_append, hhdrlen, List.length_take]
  -- the conditional final flush
  have hwc : ∀ wc : WCtx × ECtx,
      wc = (if s.ctx.output.length < s.ctx.outputSize then ppWriteBits s.w s.ctx 0 7
            else (s.w, s.ctx)) →
      wc.2.output = hdr ++ (packAll bits).take (s.ctx.outputSize - 16) ∧
      wc.2.outputSize = s.ctx.outputSize := by
    intro wc hwcdef
    by_cases hroom : s.ctx.output.length < s.ctx.outputSize
    · rw [if_pos hroom] at hwcdef
      subst hwcdef
      have hw := ppWriteBits_spec s.w s.ctx hdr bits 0 7 ⟨hsn, hsbuf, hsout, hhdrlen, hssz⟩
        (by norm_num) (by norm_num)
      have hout2 := hw.1.2.2.1
      rw [natBits_zero, toBytes_seven_pad] at hout2
      refine ⟨?_, hw.2.2.1⟩
      rw [hout2, hw.2.2.1]
    · rw [if_neg hroom] at hwcdef
      subst hwcdef
      have hc16le : s.ctx.outputSize - 16 ≤ (toBytes bits).length := by omega
      refine ⟨?_, rfl⟩
      show s.ctx.output = _
      rw [hsout, packAll_take bits _ hc16le]
  obtain ⟨hwcout, hwcsz⟩ := hwc _ rfl
  set wc := (if s.ctx.output.length < s.ctx.outputSize then ppWriteBits s.w s.ctx 0 7
      else (s.w, s.ctx)) with hwcdef
  have hbody : (packAll bits).take (s.ctx.outputSize - 16) = ppBody B := by
    rw [ppBody, hssize, hbits]
  rw [hbody] at hwcout
  have hwclen : wc.2.output.length = 16 + (ppBody B).length := by
    rw [hwcout, List.length_append, hhdrlen]
  have hkey : setU16At (setU32At wc.2.output 8 (wc.2.output.length % 4294967296)) 14
      (ppChecksum B) = ppArtifact B level := by
    rw [hwcout, List.length_append, hhdrlen, ppArtifact, hhdrdef]
  rw [hkey, ppArtifact_length]
  by_cases hcap : 16 + (ppBody B).length ≤ cap
  · rw [if_pos hcap, if_pos hcap]
    exact ⟨rfl, rfl, fun _ => rfl⟩
  · rw [if_neg hcap, if_neg hcap]
    exact ⟨rfl, rfl, fun h => absurd h hcap⟩

theorem padBits_length (l : List Bool) :
    (padBits l).length = l.length + (8 - l.length % 8) % 8 := by
  rw [padBits, List.length_append, List.length_replicate]

theorem packAll_length (l : List Bool) : (packAll l).length = (l.length + 7) / 8 := by
  rw [packAll, toBytes_length, padBits_length]
  omega

theorem ppBody_length (B : List Nat) :
    (ppBody B).length
      = min (B.length + B.length / 10 + 1024 - 16) ((9 * B.length + 7) / 8) := by
  rw [ppBody, List.length_take, packAll_length, literalBits_length]

theorem ppChecksum_aux (l : List Nat) :
    ∀ a : Nat, a < 65536 → l.foldl (fun x b => (x + b) &&& 0xFFFF) a = (a + l.sum) % 65536 := by
  induction l with
  | nil =>
    intro a ha
    simp [Nat.mod_eq_of_lt ha]
  | cons b bs ih =>
    intro a ha
    rw [List.foldl_cons, List.sum_cons]
    have hand : (a + b) &&& 0xFFFF = (a + b) % 65536 := by
      rw [show (0xFFFF : Nat) = 2 ^ 16 - 1 by norm_num, Nat.and_pow_two_sub_one_eq_mod]
    rw [hand, ih _ (by omega)]
    omega

theorem ppChecksum_eq (l : List Nat) : ppChecksum l = l.sum % 65536 := by
  rw [ppChecksum, ppChecksum_aux l 0 (by omega), Nat.zero_add]

theorem ppChecksum_lt (l : List Nat) : ppChecksum l < 65536 := by
  rw [ppChecksum_eq]
  omega

theorem ppArtifact_explicit (B : List Nat) (level : Nat) :
    ppArtifact B level =
      [0x50, 0x50, 1, 0,
       B.length % 4294967296 % 256, B.length % 4294967296 / 256 % 256,
       B.length % 4294967296 / 65536 % 256, B.length % 4294967296 / 16777216 % 256,
       (16 + (ppBody B).length) % 4294967296 % 256,
       (16 + (ppBody B).length) % 4294967296 / 256 % 256,
       (16 + (ppBody B).length) % 4294967296 / 65536 % 256,
       (16 + (ppBody B).length) % 4294967296 / 16777216 % 256,
       level % 256, ppDetectFiletype B,
       ppChecksum B % 256, ppChecksum B / 256 % 256] ++ ppBody B := by
  rw [ppArtifact, headerBytes]
  simp [u32le, setU32At, setU16At, List.set]

theorem u32_decode (v : Nat) :
    v % 256 + 256 * (v / 256 % 256) + 65536 * (v / 65536 % 256) + 16777216 * (v / 16777216 % 256)
      = v % 4294967296 := by
  omega

theorem u16_decode (v : Nat) : v % 256 + 256 * (v / 256 % 256) = v % 65536 := by
  omega

/-! ### Crafted artifacts used to exercise the decoder's missing checks -/

/-- A crafted artifact: header with `uncompressed_size = 4` and checksum
0x0246, followed by a literal `a` (0x61) and a match token with offset 1 and
length 5 — a copy that runs `out_pos` from 1 to 6, two bytes past
`uncompressed_size`. -/
def overrunArtifact : List Nat :=
  [0x50, 0x50, 1, 0, 4, 0, 0, 0, 0, 0, 0, 0, 6, 0, 0x46, 0x02]
    ++ packAll ([false] ++ natBits 0x61 8 ++ [true] ++ natBits 1 15 ++ natBits 2 8)

/-- A crafted artifact: header with `uncompressed_size = 3` and checksum 0,
followed by a single match token with offset 0 and length 3 — a copy from the
current (uninitialised) output position. -/
def offsetZeroArtifact : List Nat :=
  [0x50, 0x50, 1, 0, 3, 0, 0, 0, 0, 0, 0, 0, 6, 0, 0, 0]
    ++ packAll ([true] ++ natBits 0 15 ++ natBits 0 8)

/-- A truncated artifact: a bare 16-byte header claiming
`uncompressed_size = 1` with zero token-stream bytes behind it. -/
def truncatedArtifact : List Nat :=
  [0x50, 0x50, 1, 0, 1, 0, 0, 0, 18, 0, 0, 0, 6, 0, 0, 0]

/-- C2.  The claim says the decoder rejects, as `Malformed`, any match token
whose copy would push `out_pos + length` beyond `uncompressed_size`, and hence
never writes at or past `uncompressed_size`.  The source has no such check:
on `overrunArtifact` (uncompressed_size 4) the decoder copies the full
5-byte match, writes output positions 4 and 5, reports output length 6, and
returns success. -/
theorem c2_match_overrun_not_rejected :
    (ppDecompress overrunArtifact (List.replicate 16 0)).code = 0 ∧
    (ppDecompress overrunArtifact (List.replicate 16 0)).outLen = 6 ∧
    readU32 overrunArtifact 4 = 4 ∧
    (ppDecompress overrunArtifact (List.replicate 16 0)).buf.getD 4 0 = 0x61 ∧
    (ppDecompress overrunArtifact (List.replicate 16 0)).buf.getD 5 0 = 0x61 := by
  decide

/-- C3.  The claim says the decoder checks `offset ≥ 1` and
`offset ≤ out_pos` on every match token and returns `Malformed` otherwise.
The source performs neither check: on `offsetZeroArtifact`, whose only token
is a match with offset 0 at `out_pos = 0`, the decoder copies three bytes of
uninitialised output onto itself and returns success (0), not Malformed (-1). -/
theorem c3_offset_zero_not_rejected :
    (ppDecompress offsetZeroArtifact (List.replicate 8 0)).code = 0 ∧
    (ppDecompress offsetZeroArtifact (List.replicate 8 0)).outLen = 3 := by
  decide

/-- C4.  The claim says that when the token stream is exhausted before
`uncompressed_size` bytes are reconstructed, the decoder returns a
non-success result instead of reading past the compressed buffer.  The
source's `READ_BITS` has no bounds check: on the header-only
`truncatedArtifact` the decoder fetches bytes past the end of the input
(`oobIn = true`) and even returns success. -/
theorem c4_truncated_artifact_read_past_end :
    (ppDecompress truncatedArtifact (List.replicate 4 0)).code = 0 ∧
    (ppDecompress truncatedArtifact (List.replicate 4 0)).oobIn = true := by
  decide

/-- C6.  The claim says `pp_compress` is a pure function of `(input, level)`
even across successive calls in one process, because the bit accumulator is
invocation-local.  In the source the accumulator is `static`: after
compressing eight 0xFF bytes (72 token bits, leaving 7 buffered padding
bits), a second identical call starts from the leftover state and produces a
different (one byte longer, differently packed) artifact. -/
theorem c6_compress_not_pure_across_calls :
    (ppCompress ⟨0, 0⟩ [255, 255, 255, 255, 255, 255, 255, 255] 6 100).code = 0 ∧
    (ppCompress (ppCompress ⟨0, 0⟩ [255, 255, 255, 255, 255, 255, 255, 255] 6 100).w
        [255, 255, 255, 255, 255, 255, 255, 255] 6 100).code = 0 ∧
    (ppCompress ⟨0, 0⟩ [255, 255, 255, 255, 255, 255, 255, 255] 6 100).bytes ≠
      (ppCompress (ppCompress ⟨0, 0⟩ [255, 255, 255, 255, 255, 255, 255, 255] 6 100).w
        [255, 255, 255, 255, 255, 255, 255, 255] 6 100).bytes := by
  decide

/-- C5.  The claim says every artifact fits in the encoder's internal
allocation of `N + N/10 + 1024` bytes and that an attempted overflow is a
hard `OutputTooSmall` error.  For `N = 40321` the all-literal token stream
needs `(9N + 7)/8 = 45362` body bytes, but the allocation leaves only 45361:
the encoder silently drops the final byte (the artifact it returns is 45377
bytes, one short of the 45378 the stream requires) and still returns 0. -/
theorem c5_output_capacity_exceeded_silently :
    (ppCompress ⟨0, 0⟩ (List.replicate 40321 0) 6 1000000).code = 0 ∧
    (ppCompress ⟨0, 0⟩ (List.replicate 40321 0) 6 1000000).outLen = 45377 ∧
    (packAll (literalBits (List.replicate 40321 0))).length = 45362 ∧
    45377 < 16 + 45362 := by
  have hspec := ppCompress_spec (List.replicate 40321 0) 6 1000000
    (by intro h; have hlen := congrArg List.length h; rw [List.length_replicate] at hlen; simp at hlen)
    (by intro b hb; rw [List.eq_of_mem_replicate hb]; norm_num)
    (by rw [List.length_replicate]; norm_num)
  have hlen : (ppBody (List.replicate 40321 0)).length = 45361 := by
    rw [ppBody_length, List.length_replicate]
    norm_num
  have hpl : (packAll (literalBits (List.replicate 40321 0))).length = 45362 := by
    rw [packAll_length, literalBits_length, List.length_replicate]
  refine ⟨?_, ?_, hpl, by norm_num⟩
  · rw [hspec.2.1, hlen, if_pos (by norm_num)]
  · rw [hspec.1, hlen]

/-- C7.  Header well-formedness and checksum law: every artifact produced by
`pp_compress` starts with bytes 0x50 0x50, carries the input length in the
little-endian `uncompressed_size` field at offset 4, its own total length in
the `compressed_size` field at offset 8, and the byte sum of the input modulo
2^16 in the `checksum` field at offset 14. -/
theorem c7_header_wellformed (B : List Nat) (level cap : Nat)
    (hne : B ≠ []) (hb : ∀ b ∈ B, b < 256) (hsz : B.length < 2147483648)
    (hcap : B.length + B.length / 10 + 1024 ≤ cap) :
    (ppCompress ⟨0, 0⟩ B level cap).code = 0 ∧
    (ppCompress ⟨0, 0⟩ B level cap).bytes.getD 0 0 = 0x50 ∧
    (ppCompress ⟨0, 0⟩ B level cap).bytes.getD 1 0 = 0x50 ∧
    readU32 (ppCompress ⟨0, 0⟩ B level cap).bytes 4 = B.length ∧
    readU32 (ppCompress ⟨0, 0⟩ B level cap).bytes 8 = (ppCompress ⟨0, 0⟩ B level cap).bytes.length ∧
    readU16 (ppCompress ⟨0, 0⟩ B level cap).bytes 14 = B.sum % 65536 := by
  have hspec := ppCompress_spec B level cap hne hb hsz
  have hblen : (ppBody B).length ≤ B.length + B.length / 10 + 1024 - 16 := by
    rw [ppBody_length]
    omega
  have hcap2 : 16 + (ppBody B).length ≤ cap := by omega
  have hbytes := hspec.2.2 hcap2
  have hcode : (ppCompress ⟨0, 0⟩ B level cap).code = 0 := by
    rw [hspec.2.1, if_pos hcap2]
  have hd32 := u32_decode (B.length % 4294967296)
  have hd32b := u32_decode ((16 + (ppBody B).length) % 4294967296)
  have hd16 := u16_decode (ppChecksum B)
  refine ⟨hcode, ?_, ?_, ?_, ?_, ?_⟩ <;> rw [hbytes, ppArtifact_explicit]
  · simp
  · simp
  · simp only [readU32]
    simp
    omega
  · rw [← ppArtifact_explicit, ppArtifact_length, ppArtifact_explicit]
    simp only [readU32]
    simp
    omega
  · simp only [readU16]
    simp
    have := ppChecksum_lt B
    have := ppChecksum_eq B
    omega

/-- Witness for C7 at the concrete input [0x41] with level 6 and caller
capacity 2000. -/
theorem c7_header_wellformed_witness :
    (ppCompress ⟨0, 0⟩ [0x41] 6 2000).code = 0 ∧
    (ppCompress ⟨0, 0⟩ [0x41] 6 2000).bytes.getD 0 0 = 0x50 ∧
    (ppCompress ⟨0, 0⟩ [0x41] 6 2000).bytes.getD 1 0 = 0x50 ∧
    readU32 (ppCompress ⟨0, 0⟩ [0x41] 6 2000).bytes 4 = [0x41].length ∧
    readU32 (ppCompress ⟨0, 0⟩ [0x41] 6 2000).bytes 8 = (ppCompress ⟨0, 0⟩ [0x41] 6 2000).bytes.length ∧
    readU16 (ppCompress ⟨0, 0⟩ [0x41] 6 2000).bytes 14 = [0x41].sum % 65536 :=
  c7_header_wellformed [0x41] 6 2000 (by decide) (by decide) (by decide) (by decide)

/-- C9, counterexample.  The claim says the writer emits `version_minor = 1`
(offset 3) and `file_type = 0` (offset 13).  Compressing the 4-byte input
"%PDF" yields an artifact whose byte 3 is 0 (not 1) and whose byte 13 is 5
(the PDF sniff result, not 0). -/
theorem c9_advisory_bytes_cex :
    (ppCompress ⟨0, 0⟩ [0x25, 0x50, 0x44, 0x46] 6 2000).bytes.getD 3 0 ≠ 1 ∧
    (ppCompress ⟨0, 0⟩ [0x25, 0x50, 0x44, 0x46] 6 2000).bytes.getD 13 0 ≠ 0 := by
  decide

/-- C9, amended.  What the writer actually emits: `version_minor` (offset 3)
is 0 on every produced artifact, and `file_type` (offset 13) equals
`pp_detect_filetype(input)` — nonzero whenever the sniffer recognises a
signature or mostly-text content. -/
theorem c9_advisory_bytes_amended (B : List Nat) (level cap : Nat)
    (hne : B ≠ []) (hb : ∀ b ∈ B, b < 256) (hsz : B.length < 2147483648)
    (hcap : B.length + B.length / 10 + 1024 ≤ cap) :
    (ppCompress ⟨0, 0⟩ B level cap).bytes.getD 3 0 = 0 ∧
    (ppCompress ⟨0, 0⟩ B level cap).bytes.getD 13 0 = ppDetectFiletype B := by
  have hspec := ppCompress_spec B level cap hne hb hsz
  have hblen : (ppBody B).length ≤ B.length + B.length / 10 + 1024 - 16 := by
    rw [ppBody_length]
    omega
  have hbytes := hspec.2.2 (by omega)
  rw [hbytes, ppArtifact_explicit]
  refine ⟨by simp, by simp⟩

/-- Witness for C9's amended claim at the concrete input "%PDF". -/
theorem c9_advisory_bytes_amended_witness :
    (ppCompress ⟨0, 0⟩ [0x25, 0x50, 0x44, 0x46] 6 2000).bytes.getD 3 0 = 0 ∧
    (ppCompress ⟨0, 0⟩ [0x25, 0x50, 0x44, 0x46] 6 2000).bytes.getD 13 0
      = ppDetectFiletype [0x25, 0x50, 0x44, 0x46] :=
  c9_advisory_bytes_amended [0x25, 0x50, 0x44, 0x46] 6 2000
    (by decide) (by decide) (by decide) (by decide)

/-! ### C8: bounds on what the match finder can return -/

theorem extendLen_le (inp : List Nat) : ∀ (fuel q p : Nat), extendLen inp q p fuel ≤ fuel
  | 0, _, _ => Nat.le_refl 0
  | fuel + 1, q, p => by
    rw [extendLen]
    split
    · have := extendLen_le inp fuel (q + 1) (p + 1)
      omega
    · omega

theorem chainWalk_bounds (c : ECtx) (pos maxm : Nat)
    (hpv : ∀ i, c.prev i < 2147483648)
    (hpos : pos < 4294967296) :
    ∀ (fuel : Nat) (cp : Int) (bo bl : Nat),
      cp < 2147483648 →
      (3 ≤ bl → 1 ≤ bo ∧ bo ≤ pos ∧ bo ≤ 32768 ∧ bl ≤ maxm) →
      3 ≤ (chainWalk c pos maxm fuel cp bo bl).2 →
      1 ≤ (chainWalk c pos maxm fuel cp bo bl).1 ∧
      (chainWalk c pos maxm fuel cp bo bl).1 ≤ pos ∧
      (chainWalk c pos maxm fuel cp bo bl).1 ≤ 32768 ∧
      (chainWalk c pos maxm fuel cp bo bl).2 ≤ maxm := by
  intro fuel
  induction fuel with
  | zero =>
    intro cp bo bl hcp hinv h3
    exact hinv h3
  | succ fuel ih =>
    intro cp bo bl hcp hinv h3
    rw [chainWalk] at h3 ⊢
    by_cases hneg : cp < 0
    · rw [if_pos hneg] at h3 ⊢
      exact hinv h3
    · rw [if_neg hneg] at h3 ⊢
      dsimp only at h3 ⊢
      have hq : (cp.toNat : Int) = cp := Int.toNat_of_nonneg (by omega)
      have hqlt : cp.toNat < 2147483648 := by omega
      have hqmod : cp.toNat % 4294967296 = cp.toNat := Nat.mod_eq_of_lt (by omega)
      rw [hqmod] at h3 ⊢
      set offset := (pos + 4294967296 - cp.toNat) % 4294967296 with hoff
      by_cases hbig : 32768 < offset
      · rw [if_pos hbig] at h3 ⊢
        exact hinv h3
      · rw [if_neg hbig] at h3 ⊢
        by_cases hzero : offset = 0
        · rw [if_pos hzero] at h3 ⊢
          exact hinv h3
        · rw [if_neg hzero] at h3 ⊢
          have hoffle : offset ≤ pos := by
            by_cases hle : cp.toNat ≤ pos
            · have : offset = pos - cp.toNat := by rw [hoff]; omega
              omega
            · exfalso
              have : offset = 4294967296 - (cp.toNat - pos) := by rw [hoff]; omega
              omega
          by_cases hcheap : c.input.getD (cp.toNat + bl) 0 = c.input.getD (pos + bl) 0
          · rw [if_pos hcheap] at h3 ⊢
            have hext := extendLen_le c.input maxm cp.toNat pos
            by_cases hadopt : 3 ≤ extendLen c.input cp.toNat pos maxm ∧ bl < extendLen c.input cp.toNat pos maxm
            · rw [if_pos hadopt] at h3 ⊢
              by_cases hmax : extendLen c.input cp.toNat pos maxm = maxm
              · rw [if_pos hmax] at h3 ⊢
                refine ⟨by omega, hoffle, by omega, by omega⟩
              · rw [if_neg hmax] at h3 ⊢
                exact ih (c.prev cp.toNat) offset (extendLen c.input cp.toNat pos maxm)
                  (hpv _) (fun _ => ⟨by omega, hoffle, by omega, by omega⟩) h3
            · rw [if_neg hadopt] at h3 ⊢
              exact ih (c.prev cp.toNat) bo bl (hpv _) hinv h3
          · rw [if_neg hcheap] at h3 ⊢
            exact ih (c.prev cp.toNat) bo bl (hpv _) hinv h3

/-- C8.  Every `(offset, length)` pair that `pp_find_longest_match` can
return with `length ≥ MIN_MATCH` satisfies the wire-format bounds
`1 ≤ offset ≤ pos` (the position being searched, which is the encoder's
`out_pos` at emission), `offset ≤ MAX_WINDOW_SIZE = 32768` and
`MIN_MATCH = 3 ≤ length ≤ MAX_LOOKAHEAD = 258` — for any context state whose
hash table and prev chain hold `int32_t` values, as the C arrays do.
Consequently every match token the encoder could emit is in range.  (In
fact, by `find_after_update`, the search that `pp_compress` performs right
after inserting `pos` never returns a match at all, so the emitted-token
form of the claim holds vacuously as well.) -/
theorem c8_match_bounds (c : ECtx) (pos off len : Nat)
    (hht : ∀ i, c.hashTable i < 2147483648)
    (hpv : ∀ i, c.prev i < 2147483648)
    (hpos : pos < 4294967296)
    (hfind : ppFindLongestMatch c pos = (off, len)) (hlen : 3 ≤ len) :
    1 ≤ off ∧ off ≤ pos ∧ off ≤ 32768 ∧ 3 ≤ len ∧ len ≤ 258 := by
  rw [ppFindLongestMatch] at hfind
  by_cases hshort : c.input.length < pos + 3
  · rw [if_pos hshort] at hfind
    cases hfind
    omega
  · rw [if_neg hshort] at hfind
    dsimp only at hfind
    set h0 := hashFunc (c.input.getD pos 0) (c.input.getD (pos + 1) 0) (c.input.getD (pos + 2) 0)
    set maxm := min (c.input.length - pos) 258 with hmaxm
    have hmle : maxm ≤ 258 := by omega
    by_cases h3 : 3 ≤ (chainWalk c pos maxm 128 (c.hashTable h0) 0 0).2
    · rw [if_pos h3] at hfind
      have hbd := chainWalk_bounds c pos maxm hpv hpos 128 (c.hashTable h0) 0 0
        (hht _) (by omega) h3
      rw [hfind] at hbd h3
      exact ⟨hbd.1, hbd.2.1, hbd.2.2.1, h3, by have := hbd.2.2.2; omega⟩
    · rw [if_neg h3] at hfind
      cases hfind
      omega

/-- A context in which the match finder does return a match: the input
`[1,2,3,1,2,3]` with position 0 already inserted in the chain for the
fingerprint of `[1,2,3]` (which is 1091). -/
def c8ctx : ECtx :=
  { input := [1, 2, 3, 1, 2, 3]
    output := []
    outputSize := 0
    hashTable := fun i => if i = 1091 then 0 else -1
    prev := fun _ => -1 }

/-- Witness for C8: in `c8ctx`, searching at position 3 returns the match
`(offset 3, length 3)`, and the theorem's bounds hold for it. -/
theorem c8_match_bounds_witness :
    ppFindLongestMatch c8ctx 3 = (3, 3) ∧
    (1 ≤ 3 ∧ 3 ≤ 3 ∧ 3 ≤ 32768 ∧ 3 ≤ 3 ∧ 3 ≤ 258) :=
  ⟨by decide,
   c8_match_bounds c8ctx 3 3 3
     (by intro i; show (if i = 1091 then (0 : Int) else -1) < 2147483648; split <;> decide)
     (by intro i; show (-1 : Int) < 2147483648; decide)
     (by decide) (by decide) (by decide)⟩

/-! ### C10: the decoder never reads the advisory header bytes -/

theorem refill_ptr_mono (inp : List Nat) (n : Nat) :
    ∀ (fuel : Nat) (s : RSt), s.ptr ≤ (refill inp n fuel s).ptr
  | 0, s => Nat.le_refl _
  | fuel + 1, s => by
    rw [refill]
    split
    · exact le_trans (Nat.le_succ _) (refill_ptr_mono inp n fuel
        ⟨s.ptr + 1, (s.bb ||| (inp.getD s.ptr 0 <<< s.av)) % 4294967296, s.av + 8,
          s.oobIn || decide (inp.length ≤ s.ptr)⟩)
    · exact Nat.le_refl _

theorem readBits_ptr_mono (inp : List Nat) (n : Nat) (s : RSt) :
    s.ptr ≤ (readBits inp n s).2.ptr := by
  rw [readBits]
  exact refill_ptr_mono inp n 2 s

theorem copyLoop_r : ∀ (len src : Nat) (dd : DSt), (copyLoop len src dd).r = dd.r
  | 0, _, _ => rfl
  | len + 1, src, dd => by
    rw [copyLoop]
    exact copyLoop_r len _ _

theorem refill_congr (a b : List Nat) (hlen : a.length = b.length)
    (hag : ∀ i, 16 ≤ i → a.getD i 0 = b.getD i 0) (n : Nat) :
    ∀ (fuel : Nat) (s : RSt), 16 ≤ s.ptr → refill a n fuel s = refill b n fuel s
  | 0, _, _ => rfl
  | fuel + 1, s, hptr => by
    rw [refill, refill]
    split
    · rw [hag s.ptr hptr, hlen]
      exact refill_congr a b hlen hag n fuel _ (by show 16 ≤ s.ptr + 1; omega)
    · rfl

theorem readBits_congr (a b : List Nat) (hlen : a.length = b.length)
    (hag : ∀ i, 16 ≤ i → a.getD i 0 = b.getD i 0) (n : Nat) (s : RSt) (hptr : 16 ≤ s.ptr) :
    readBits a n s = readBits b n s := by
  rw [readBits, readBits, refill_congr a b hlen hag n 2 s hptr]

theorem decodeLoop_congr (a b : List Nat) (hlen : a.length = b.length)
    (hag : ∀ i, 16 ≤ i → a.getD i 0 = b.getD i 0) (usize : Nat) :
    ∀ (fuel : Nat) (d : DSt), 16 ≤ d.r.ptr →
      decodeLoop a usize fuel d = decodeLoop b usize fuel d
  | 0, _, _ => rfl
  | fuel + 1, d, hptr => by
    conv_lhs => rw [decodeLoop]
    conv_rhs => rw [decodeLoop]
    by_cases hop : d.op < usize
    · rw [if_pos hop, if_pos hop]
      dsimp only
      rw [readBits_congr a b hlen hag 1 d.r hptr]
      have hp1 : 16 ≤ (readBits b 1 d.r).2.ptr := le_trans hptr (readBits_ptr_mono b 1 d.r)
      rw [readBits_congr a b hlen hag 15 _ hp1]
      have hp2 : 16 ≤ (readBits b 15 (readBits b 1 d.r).2).2.ptr :=
        le_trans hp1 (readBits_ptr_mono b 15 _)
      rw [readBits_congr a b hlen hag 8 _ hp2]
      rw [readBits_congr a b hlen hag 8 _ hp1]
      have hp3 : 16 ≤ (readBits b 8 (readBits b 15 (readBits b 1 d.r).2).2).2.ptr :=
        le_trans hp2 (readBits_ptr_mono b 8 _)
      have hp4 : 16 ≤ (readBits b 8 (readBits b 1 d.r).2).2.ptr :=
        le_trans hp1 (readBits_ptr_mono b 8 _)
      split
      · refine decodeLoop_congr a b hlen hag usize fuel _ ?_
        rw [copyLoop_r]
        exact hp3
      · exact decodeLoop_congr a b hlen hag usize fuel _ hp4
    · rw [if_neg hop, if_neg hop]
/-- C10.  Noninterference of advisory header bytes: two artifacts of equal
length that agree everywhere except possibly at byte offsets 2
(`version_major`), 3 (`version_minor`), 12 (`compression_level`) and 13
(`file_type`) decode identically — same result code, same reported length,
same output bytes, same out-of-bounds behaviour.  The decoder reads only the
magic, `uncompressed_size`, `checksum` and the token stream; in particular it
accepts any `version_major`, not only any `version_minor`. -/
theorem c10_advisory_noninterference (a b out : List Nat)
    (hlen : a.length = b.length)
    (hag : ∀ i, i < a.length → i ≠ 2 → i ≠ 3 → i ≠ 12 → i ≠ 13 → a.getD i 0 = b.getD i 0) :
    ppDecompress a out = ppDecompress b out := by
  have hg : ∀ i, i ≠ 2 → i ≠ 3 → i ≠ 12 → i ≠ 13 → a.getD i 0 = b.getD i 0 := by
    intro i h2 h3 h12 h13
    by_cases hi : i < a.length
    · exact hag i hi h2 h3 h12 h13
    · rw [List.getD_eq_default _ _ (by omega), List.getD_eq_default _ _ (by omega)]
  have hg16 : ∀ i, 16 ≤ i → a.getD i 0 = b.getD i 0 := by
    intro i hi
    exact hg i (by omega) (by omega) (by omega) (by omega)
  have h01 : readU16 a 0 = readU16 b 0 := by
    rw [readU16, readU16, hg 0 (by omega) (by omega) (by omega) (by omega),
      hg 1 (by omega) (by omega) (by omega) (by omega)]
  have h47 : readU32 a 4 = readU32 b 4 := by
    rw [readU32, readU32, hg 4 (by omega) (by omega) (by omega) (by omega),
      hg 5 (by omega) (by omega) (by omega) (by omega),
      hg 6 (by omega) (by omega) (by omega) (by omega),
      hg 7 (by omega) (by omega) (by omega) (by omega)]
  have h1415 : readU16 a 14 = readU16 b 14 := by
    rw [readU16, readU16, hg 14 (by omega) (by omega) (by omega) (by omega),
      hg 15 (by omega) (by omega) (by omega) (by omega)]
  rw [ppDecompress, ppDecompress, hlen, h01, h47, h1415]
  dsimp only
  rw [decodeLoop_congr a b hlen hg16 (readU32 b 4) (readU32 b 4)
    ⟨⟨16, 0, 0, false⟩, 0, out, false⟩ (by show (16:Nat) ≤ 16; omega)]

/-- Witness for C10: the artifact of the 1-byte input [0x41] and a copy with
junk in all four advisory bytes (2, 3, 12, 13) decode to the same result. -/
theorem c10_advisory_noninterference_witness :
    ppDecompress [80, 80, 1, 0, 1, 0, 0, 0, 18, 0, 0, 0, 6, 0, 65, 0, 130, 0] [0, 0]
      = ppDecompress [80, 80, 77, 99, 1, 0, 0, 0, 18, 0, 0, 0, 200, 123, 65, 0, 130, 0] [0, 0] :=
  c10_advisory_noninterference _ _ [0, 0] (by decide) (by decide)

/-! ### Decoder simulation: the token bit stream of an artifact -/

/-- Bit `i` of the token stream of artifact `inp`: bit `i % 8` (LSB first) of
the byte at offset `16 + i/8`; bytes past the end of the artifact read 0,
matching the `getD` model of the decoder's out-of-bounds fetches. -/
def bitAt (inp : List Nat) (i : Nat) : Bool :=
  (inp.getD (16 + i / 8) 0).testBit (i % 8)

/-- Value of the `k` stream bits starting at position `c`, LSB first. -/
def sliceVal (inp : List Nat) : Nat → Nat → Nat
  | _, 0 => 0
  | c, k + 1 => (if bitAt inp c then 1 else 0) + 2 * sliceVal inp (c + 1) k

theorem sliceVal_lt (inp : List Nat) : ∀ (k c : Nat), sliceVal inp c k < 2 ^ k
  | 0, _ => Nat.one_pos
  | k + 1, c => by
    have := sliceVal_lt inp k (c + 1)
    rw [sliceVal]
    rw [pow_succ]
    split <;> omega

theorem sliceVal_split (inp : List Nat) :
    ∀ (m c k : Nat), sliceVal inp c (m + k) = sliceVal inp c m + 2 ^ m * sliceVal inp (c + m) k := by
  intro m
  induction m with
  | zero =>
    intro c k
    simp [sliceVal]
  | succ m ih =>
    intro c k
    have h1 : m + 1 + k = (m + k) + 1 := by omega
    rw [h1]
    rw [sliceVal, sliceVal, ih (c + 1) k]
    have h2 : c + 1 + m = c + (m + 1) := by omega
    rw [h2, pow_succ]
    ring

theorem sliceVal_eq_bitsNat (inp : List Nat) :
    ∀ (k c : Nat) (L : List Bool), L.length = k →
      (∀ j, j < k → bitAt inp (c + j) = L.getD j false) →
      sliceVal inp c k = bitsNat L := by
  intro k
  induction k with
  | zero =>
    intro c L hL _
    rw [List.length_eq_zero] at hL
    rw [hL]
    rfl
  | succ k ih =>
    intro c L hL hbits
    cases L with
    | nil => simp at hL
    | cons b L =>
      rw [sliceVal, bitsNat]
      have h0 := hbits 0 (by omega)
      rw [Nat.add_zero] at h0
      rw [h0, List.getD_cons_zero]
      have hrest : sliceVal inp (c + 1) k = bitsNat L := by
        refine ih (c + 1) L (by simp at hL; omega) ?_
        intro j hj
        have := hbits (j + 1) (by omega)
        rw [show c + (j + 1) = c + 1 + j by omega] at this
        rw [this, List.getD_cons_succ]
      rw [hrest]

theorem sliceVal_byte (inp : List Nat) (c : Nat) (hc : c % 8 = 0)
    (hb : inp.getD (16 + c / 8) 0 < 256) :
    sliceVal inp c 8 = inp.getD (16 + c / 8) 0 := by
  set v := inp.getD (16 + c / 8) 0 with hv
  have hbit : ∀ j, j < 8 → bitAt inp (c + j) = v.testBit j := by
    intro j hj
    rw [bitAt]
    have h1 : (c + j) / 8 = c / 8 := by omega
    have h2 : (c + j) % 8 = j := by omega
    rw [h1, h2, ← hv]
  have hveq : v = bitsNat (natBits v 8) := (bitsNat_natBits_self v 8 hb).symm
  have hres : sliceVal inp c 8 = bitsNat (natBits v 8) := by
    refine sliceVal_eq_bitsNat inp 8 c (natBits v 8) (natBits_length v 8) ?_
    intro j hj
    rw [hbit j hj]
    conv_lhs => rw [hveq]
    rw [bitsNat_testBit]
  rw [hres, bitsNat_natBits_self v 8 hb]

/-- Mid-refill reader invariant: the accumulator holds the `av` stream bits
starting at consumed position `c`, and the byte pointer sits exactly
`av` buffered bits ahead of `c`. -/
def RMid (inp : List Nat) (s : RSt) (c : Nat) : Prop :=
  s.av ≤ 23 ∧ 8 * (s.ptr - 16) = c + s.av ∧ 16 ≤ s.ptr ∧
  s.bb = sliceVal inp c s.av ∧ (s.oobIn = false → s.ptr ≤ inp.length)

/-- Reader invariant at token boundaries: as `RMid` but with fewer than one
byte buffered, which every `READ_BITS(n ≤ 15)` call re-establishes. -/
def RInv (inp : List Nat) (s : RSt) (c : Nat) : Prop :=
  s.av < 8 ∧ 8 * (s.ptr - 16) = c + s.av ∧ 16 ≤ s.ptr ∧
  s.bb = sliceVal inp c s.av ∧ (s.oobIn = false → s.ptr ≤ inp.length)

theorem oob_chain (o : Bool) (len p1 p2 : Nat) (h : p1 ≤ p2) :
    ((o || decide (len < p1)) || decide (len < p2)) = (o || decide (len < p2)) := by
  cases o
  · by_cases h1 : len < p1 <;> by_cases h2 : len < p2 <;> simp_all <;> omega
  · simp

theorem fetch_spec (inp : List Nat) (hbytes : ∀ x ∈ inp, x < 256)
    (s : RSt) (c : Nat) (hav : s.av ≤ 15) (hI : RMid inp s c) :
    RMid inp ⟨s.ptr + 1, (s.bb ||| (inp.getD s.ptr 0 <<< s.av)) % 4294967296,
        s.av + 8, s.oobIn || decide (inp.length ≤ s.ptr)⟩ c ∧
    (s.oobIn || decide (inp.length ≤ s.ptr)) = (s.oobIn || decide (inp.length < s.ptr + 1)) := by
  obtain ⟨h23, halign, h16, hbb, hoob⟩ := hI
  have hbyte : inp.getD s.ptr 0 < 256 := by
    by_cases hp : s.ptr < inp.length
    · rw [List.getD_eq_getElem _ _ hp]
      exact hbytes _ (List.getElem_mem hp)
    · rw [List.getD_eq_default _ _ (by omega)]
      omega
  have hcmod : (c + s.av) % 8 = 0 := by omega
  have hcdiv : 16 + (c + s.av) / 8 = s.ptr := by omega
  have hslice : sliceVal inp (c + s.av) 8 = inp.getD s.ptr 0 := by
    rw [sliceVal_byte inp (c + s.av) hcmod (by rw [hcdiv]; exact hbyte), hcdiv]
  have hbblt : s.bb < 2 ^ s.av := by rw [hbb]; exact sliceVal_lt inp s.av c
  have hor : (s.bb ||| (inp.getD s.ptr 0 <<< s.av)) = sliceVal inp c (s.av + 8) := by
    rw [Nat.shiftLeft_eq, Nat.lor_comm,
      show inp.getD s.ptr 0 * 2 ^ s.av = 2 ^ s.av * inp.getD s.ptr 0 by ring,
      ← Nat.mul_add_lt_is_or hbblt, sliceVal_split inp s.av c 8, hbb, hslice]
    ring
  have hlt : sliceVal inp c (s.av + 8) < 4294967296 := by
    have h1 := sliceVal_lt inp (s.av + 8) c
    have h2 : (2 : Nat) ^ (s.av + 8) ≤ 2 ^ 32 := Nat.pow_le_pow_right (by omega) (by omega)
    have h3 : (2 : Nat) ^ 32 = 4294967296 := by norm_num
    omega
  refine ⟨⟨by show s.av + 8 ≤ 23; omega, by show 8 * (s.ptr + 1 - 16) = c + (s.av + 8); omega,
    by show 16 ≤ s.ptr + 1; omega, ?_, ?_⟩, ?_⟩
  · show (s.bb ||| (inp.getD s.ptr 0 <<< s.av)) % 4294967296 = sliceVal inp c (s.av + 8)
    rw [hor, Nat.mod_eq_of_lt hlt]
  · show (s.oobIn || decide (inp.length ≤ s.ptr)) = false → s.ptr + 1 ≤ inp.length
    intro hf
    rw [Bool.or_eq_false_iff] at hf
    have := hf.2
    simp at this
    omega
  · congr 1
    rw [decide_eq_decide]
    omega

theorem refill_spec (inp : List Nat) (hbytes : ∀ x ∈ inp, x < 256)
    (n : Nat) (hn1 : 1 ≤ n) (hn15 : n ≤ 15) (s : RSt) (c : Nat) (hI : RInv inp s c) :
    RMid inp (refill inp n 2 s) c ∧ n ≤ (refill inp n 2 s).av ∧
    (refill inp n 2 s).av < n + 8 ∧
    ((refill inp n 2 s).oobIn = (s.oobIn || decide (inp.length < (refill inp n 2 s).ptr))) ∧
    s.ptr ≤ (refill inp n 2 s).ptr := by
  obtain ⟨hav8, halign, h16, hbb, hoob⟩ := hI
  have hMid : RMid inp s c := ⟨by omega, halign, h16, hbb, hoob⟩
  rw [refill]
  by_cases h1 : s.av < n
  · rw [if_pos h1]
    obtain ⟨hM1, ho1⟩ := fetch_spec inp hbytes s c (by omega) hMid
    rw [refill]
    by_cases h2 : (⟨s.ptr + 1, (s.bb ||| (inp.getD s.ptr 0 <<< s.av)) % 4294967296,
        s.av + 8, s.oobIn || decide (inp.length ≤ s.ptr)⟩ : RSt).av < n
    · rw [if_pos h2]
      have h2a : s.av + 8 < n := h2
      obtain ⟨hM2, _⟩ := fetch_spec inp hbytes
        ⟨s.ptr + 1, (s.bb ||| (inp.getD s.ptr 0 <<< s.av)) % 4294967296,
          s.av + 8, s.oobIn || decide (inp.length ≤ s.ptr)⟩ c
        (by show s.av + 8 ≤ 15; omega) hM1
      rw [refill]
      refine ⟨hM2, ?_, ?_, ?_, ?_⟩
      · show n ≤ s.av + 8 + 8
        omega
      · show s.av + 8 + 8 < n + 8
        omega
      · show ((s.oobIn || decide (inp.length ≤ s.ptr)) || decide (inp.length ≤ s.ptr + 1))
            = (s.oobIn || decide (inp.length < s.ptr + 1 + 1))
        rw [show decide (inp.length ≤ s.ptr) = decide (inp.length < s.ptr + 1) by
              rw [decide_eq_decide]; omega,
          show decide (inp.length ≤ s.ptr + 1) = decide (inp.length < s.ptr + 1 + 1) by
              rw [decide_eq_decide]; omega]
        exact oob_chain s.oobIn inp.length (s.ptr + 1) (s.ptr + 1 + 1) (by omega)
      · show s.ptr ≤ s.ptr + 1 + 1
        omega
    · rw [if_neg h2]
      have h2a : ¬ s.av + 8 < n := h2
      refine ⟨hM1, ?_, ?_, ?_, ?_⟩
      · show n ≤ s.av + 8
        omega
      · show s.av + 8 < n + 8
        omega
      · show (s.oobIn || decide (inp.length ≤ s.ptr)) = (s.oobIn || decide (inp.length < s.ptr + 1))
        rw [show decide (inp.length ≤ s.ptr) = decide (inp.length < s.ptr + 1) by
              rw [decide_eq_decide]; omega]
      · show s.ptr ≤ s.ptr + 1
        omega
  · rw [if_neg h1]
    refine ⟨hMid, by omega, by omega, ?_, le_refl _⟩
    cases hoo : s.oobIn
    · have hle := hoob hoo
      rw [show decide (inp.length < s.ptr) = false by simp; omega]
      simp
    · simp

theorem readBits_spec (inp : List Nat) (hbytes : ∀ x ∈ inp, x < 256)
    (n : Nat) (hn1 : 1 ≤ n) (hn15 : n ≤ 15) (s : RSt) (c : Nat) (hI : RInv inp s c) :
    (readBits inp n s).1 = sliceVal inp c n ∧
    RInv inp (readBits inp n s).2 (c + n) ∧
    ((readBits inp n s).2.oobIn = (s.oobIn || decide (inp.length < (readBits inp n s).2.ptr))) ∧
    s.ptr ≤ (readBits inp n s).2.ptr := by
  obtain ⟨hM, hge, hlt8, hoo, hmono⟩ := refill_spec inp hbytes n hn1 hn15 s c hI
  obtain ⟨h23, halign, h16, hbb, hoob⟩ := hM
  rw [readBits]
  dsimp only
  set t := refill inp n 2 s with ht
  have hsplit : sliceVal inp c t.av = sliceVal inp c n + 2 ^ n * sliceVal inp (c + n) (t.av - n) := by
    have h := sliceVal_split inp n c (t.av - n)
    rw [show n + (t.av - n) = t.av by omega] at h
    exact h
  have hvlt : sliceVal inp c n < 2 ^ n := sliceVal_lt inp n c
  have hval : t.bb &&& ((1 <<< n) - 1) = sliceVal inp c n := by
    rw [hbb, hsplit, Nat.one_shiftLeft, Nat.and_pow_two_sub_one_eq_mod,
      Nat.add_mul_mod_self_left, Nat.mod_eq_of_lt hvlt]
  have hshift : t.bb >>> n = sliceVal inp (c + n) (t.av - n) := by
    rw [hbb, hsplit, Nat.shiftRight_eq_div_pow,
      Nat.add_mul_div_left _ _ (Nat.pos_pow_of_pos n (by omega)),
      Nat.div_eq_of_lt hvlt, Nat.zero_add]
  refine ⟨hval, ⟨?_, ?_, h16, ?_, hoob⟩, hoo, hmono⟩
  · show t.av - n < 8
    omega
  · show 8 * (t.ptr - 16) = c + n + (t.av - n)
    omega
  · show t.bb >>> n = sliceVal inp (c + n) (t.av - n)
    exact hshift

/-- The buffer after writing `xs` at consecutive positions from `op`. -/
def writeSeq : List Nat → Nat → List Nat → List Nat
  | buf, _, [] => buf
  | buf, op, x :: xs => writeSeq (buf.set op x) (op + 1) xs

theorem writeSeq_eq : ∀ (xs buf : List Nat) (op : Nat), op + xs.length ≤ buf.length →
    writeSeq buf op xs = buf.take op ++ xs ++ buf.drop (op + xs.length)
  | [], buf, op, h => by
    show buf = buf.take op ++ [] ++ buf.drop (op + 0)
    rw [List.append_nil, Nat.add_zero, List.take_append_drop]
  | x :: xs, buf, op, h => by
    show writeSeq (buf.set op x) (op + 1) xs = _
    have hop : op < buf.length := by simp at h; omega
    have hlen : (buf.set op x).length = buf.length := by simp
    rw [writeSeq_eq xs (buf.set op x) (op + 1) (by rw [hlen]; simp at h ⊢; omega)]
    rw [List.set_eq_take_cons_drop x hop]
    have htk : op ≤ (buf.take op).length := by simp; omega
    rw [List.take_append_eq_append_take, List.take_of_length_le (by rw [List.length_take]; omega),
      show op + 1 - (List.take op buf).length = 1 from by rw [List.length_take]; omega]
    rw [List.drop_append_eq_append_drop]
    have e1 : List.take 1 (x :: List.drop (op + 1) buf) = [x] := by simp
    have e2 : List.drop (op + 1 + xs.length) (List.take op buf) = [] :=
      List.drop_eq_nil_of_le (by rw [List.length_take]; omega)
    have e3 : op + 1 + xs.length - (List.take op buf).length = xs.length + 1 := by
      rw [List.length_take]
      omega
    rw [e1, e2, e3, List.drop_succ_cons, List.drop_drop]
    have e4 : op + 1 + xs.length = op + (x :: xs).length := by simp; omega
    rw [e4]
    simp [List.append_assoc]

theorem decode_literals (inp : List Nat) (hbytes : ∀ x ∈ inp, x < 256) (usize : Nat) :
    ∀ (xs : List Nat) (fuel : Nat) (d : DSt) (c : Nat),
      RInv inp d.r c →
      (∀ j, j < 9 * xs.length → bitAt inp (c + j) = (literalBits xs).getD j false) →
      (∀ x ∈ xs, x < 256) →
      usize = d.op + xs.length →
      xs.length ≤ fuel →
      d.op + xs.length ≤ d.buf.length →
      (decodeLoop inp usize fuel d).op = usize ∧
      (decodeLoop inp usize fuel d).buf = writeSeq d.buf d.op xs ∧
      (decodeLoop inp usize fuel d).oobOut = d.oobOut ∧
      RInv inp (decodeLoop inp usize fuel d).r (c + 9 * xs.length) ∧
      ((decodeLoop inp usize fuel d).r.oobIn
        = (d.r.oobIn || decide (inp.length < (decodeLoop inp usize fuel d).r.ptr))) ∧
      d.r.ptr ≤ (decodeLoop inp usize fuel d).r.ptr := by
  intro xs
  induction xs with
  | nil =>
    intro fuel d c hI hbits hxs husz hfuel hbuf
    simp only [List.length_nil, Nat.add_zero] at husz hbuf
    have hstop : decodeLoop inp usize fuel d = d := by
      cases fuel with
      | zero => rfl
      | succ f =>
        rw [decodeLoop, if_neg (by omega)]
    rw [hstop]
    obtain ⟨h8, halign, h16, hbb, hoob⟩ := hI
    refine ⟨by omega, rfl, rfl, by simpa using ⟨h8, halign, h16, hbb, hoob⟩, ?_, le_refl _⟩
    cases hoo : d.r.oobIn
    · rw [show decide (inp.length < d.r.ptr) = false from decide_eq_false (by have := hoob hoo; omega)]
      simp
    · simp
  | cons x xs ih =>
    intro fuel d c hI hbits hxs husz hfuel hbuf
    simp only [List.length_cons] at husz hfuel hbuf
    cases fuel with
    | zero => simp at hfuel
    | succ f =>
      rw [decodeLoop, if_pos (by omega)]
      dsimp only
      -- flag read
      have hr1 := readBits_spec inp hbytes 1 (by omega) (by omega) d.r c hI
      have hflagbit : bitAt inp (c + 0) = false := by
        have := hbits 0 (by simp)
        rw [this, literalBits]
        rfl
      have hflag : (readBits inp 1 d.r).1 = 0 := by
        rw [hr1.1]
        show (if bitAt inp c then 1 else 0) + 2 * sliceVal inp (c + 1) 0 = 0
        rw [show bitAt inp c = false from by have := hflagbit; rwa [Nat.add_zero] at this]
        rfl
      rw [if_neg (by rw [hflag]; omega)]
      -- literal read
      have hr2 := readBits_spec inp hbytes 8 (by omega) (by omega) (readBits inp 1 d.r).2 (c + 1)
        hr1.2.1
      have hx256 : x < 256 := hxs x (by simp)
      have hlitval : (readBits inp 8 (readBits inp 1 d.r).2).1 = x := by
        rw [hr2.1]
        have hsl : sliceVal inp (c + 1) 8 = bitsNat (natBits x 8) := by
          refine sliceVal_eq_bitsNat inp 8 (c + 1) (natBits x 8) (natBits_length x 8) ?_
          intro j hj
          have hb := hbits (1 + j) (by simp; omega)
          rw [show c + (1 + j) = c + 1 + j by omega] at hb
          rw [hb]
          show (false :: (natBits x 8 ++ literalBits xs)).getD (1 + j) false = _
          rw [show 1 + j = j + 1 by omega, List.getD_cons_succ,
            List.getD_append _ _ _ _ (by rw [natBits_length]; omega)]
        rw [hsl, bitsNat_natBits_self x 8 hx256]
      rw [hlitval]
      rw [show decide (d.buf.length ≤ d.op) = false from decide_eq_false (by omega)]
      rw [Bool.or_false]
      -- recurse
      have hrec := ih f
        ⟨(readBits inp 8 (readBits inp 1 d.r).2).2, d.op + 1, d.buf.set d.op x, d.oobOut⟩
        (c + 9)
        (by show RInv inp (readBits inp 8 (readBits inp 1 d.r).2).2 (c + 9)
            have := hr2.2.1
            rwa [show c + 1 + 8 = c + 9 by omega] at this)
        (by intro j hj
            have hb := hbits (9 + j) (by simp; omega)
            rw [show c + (9 + j) = c + 9 + j by omega] at hb
            rw [hb]
            show (false :: (natBits x 8 ++ literalBits xs)).getD (9 + j) false = _
            rw [show 9 + j = (8 + j) + 1 by omega, List.getD_cons_succ,
              List.getD_append_right _ _ _ _ (by rw [natBits_length]; omega)]
            rw [natBits_length]
            congr 1
            omega)
        (by intro y hy; exact hxs y (by simp [hy]))
        (by show usize = d.op + 1 + xs.length; omega)
        (by omega)
        (by show d.op + 1 + xs.length ≤ (d.buf.set d.op x).length
            rw [List.length_set]; omega)
      obtain ⟨ho1, ho2, ho3, ho4, ho5, ho6⟩ := hrec
      refine ⟨ho1, ?_, ho3, ?_, ?_, ?_⟩
      · rw [ho2]
        rfl
      · have := ho4
        rwa [show c + 9 + 9 * xs.length = c + 9 * (x :: xs).length by simp; omega] at this
      · rw [ho5]
        have hp1 := hr1.2.2.2
        have hp2 := hr2.2.2.2
        have hp3 := ho6
        rw [hr2.2.2.1, hr1.2.2.1]
        rw [oob_chain _ _ _ _ hp2, oob_chain _ _ _ _ hp3]
      · exact le_trans hr1.2.2.2 (le_trans hr2.2.2.2 ho6)

theorem getD_take_lt (l : List Nat) (n i d : Nat) (h : i < n) :
    (l.take n).getD i d = l.getD i d := by
  rw [List.getD_eq_getElem?_getD, List.getD_eq_getElem?_getD, List.getElem?_take_of_lt h]

theorem literalBits_append : ∀ a b : List Nat, literalBits (a ++ b) = literalBits a ++ literalBits b
  | [], b => rfl
  | x :: xs, b => by
    show false :: (natBits x 8 ++ literalBits (xs ++ b))
        = (false :: (natBits x 8 ++ literalBits xs)) ++ literalBits b
    rw [literalBits_append xs b]
    simp [List.append_assoc]

theorem literalBits_replicate_zero : ∀ k, literalBits (List.replicate k 0) = List.replicate (9 * k) false
  | 0 => rfl
  | k + 1 => by
    rw [List.replicate_succ]
    show false :: (natBits 0 8 ++ literalBits (List.replicate k 0)) = _
    rw [natBits_zero, literalBits_replicate_zero k]
    rw [show 9 * (k + 1) = 9 + 9 * k by omega, List.replicate_add]
    rfl

theorem toBytes_mem_lt : ∀ l : List Bool, ∀ x ∈ toBytes l, x < 256
  | [] => by simp [toBytes]
  | [_] => by rw [toBytes_short _ (by simp)]; simp
  | [_, _] => by rw [toBytes_short _ (by simp)]; simp
  | [_, _, _] => by rw [toBytes_short _ (by simp)]; simp
  | [_, _, _, _] => by rw [toBytes_short _ (by simp)]; simp
  | [_, _, _, _, _] => by rw [toBytes_short _ (by simp)]; simp
  | [_, _, _, _, _, _] => by rw [toBytes_short _ (by simp)]; simp
  | [_, _, _, _, _, _, _] => by rw [toBytes_short _ (by simp)]; simp
  | b0 :: b1 :: b2 :: b3 :: b4 :: b5 :: b6 :: b7 :: rest => by
    intro x hx
    have hl : toBytes (b0 :: b1 :: b2 :: b3 :: b4 :: b5 :: b6 :: b7 :: rest)
        = bitsNat [b0, b1, b2, b3, b4, b5, b6, b7] :: toBytes rest := rfl
    rw [hl] at hx
    rcases List.mem_cons.1 hx with h | h
    · subst h
      have := bitsNat_lt [b0, b1, b2, b3, b4, b5, b6, b7]
      simpa using this
    · exact toBytes_mem_lt rest x h

theorem ppDetectFiletype_lt (B : List Nat) : ppDetectFiletype B < 256 := by
  rw [ppDetectFiletype]
  repeat' split
  all_goals try norm_num
  all_goals split <;> norm_num

theorem ppArtifact_mem_lt (B : List Nat) (level : Nat) :
    ∀ x ∈ ppArtifact B level, x < 256 := by
  intro x hx
  rw [ppArtifact_explicit] at hx
  rcases List.mem_append.1 hx with h | h
  · simp only [List.mem_cons, List.not_mem_nil, or_false] at h
    have hdet := ppDetectFiletype_lt B
    rcases h with h|h|h|h|h|h|h|h|h|h|h|h|h|h|h|h <;> omega
  · rw [ppBody] at h
    have h2 := List.mem_of_mem_take h
    exact toBytes_mem_lt _ x h2

theorem ppBody_full (B : List Nat) (hN : B.length ≤ 40288) :
    ppBody B = packAll (literalBits B) := by
  rw [ppBody]
  apply List.take_of_length_le
  rw [packAll_length, literalBits_length]
  omega

theorem checksum_fold_aux : ∀ (l tail : List Nat) (a : Nat),
    (List.range l.length).foldl (fun x i => (x + (l ++ tail).getD i 0) &&& 0xFFFF) a
      = l.foldl (fun x b => (x + b) &&& 0xFFFF) a
  | [], _, a => rfl
  | x :: xs, tail, a => by
    rw [List.length_cons, List.range_succ_eq_map, List.foldl_cons, List.foldl_map]
    rw [show ((x :: xs) ++ tail).getD 0 0 = x from rfl]
    have hf : (fun (s : Nat) (i : Nat) => (s + ((x :: xs) ++ tail).getD i.succ 0) &&& 0xFFFF)
        = fun (s : Nat) (i : Nat) => (s + (xs ++ tail).getD i 0) &&& 0xFFFF := by
      funext s i
      rw [List.cons_append, List.getD_cons_succ]
    rw [hf, checksum_fold_aux xs tail ((a + x) &&& 0xFFFF), List.foldl_cons]

theorem checksum_fold (l tail : List Nat) :
    (List.range l.length).foldl (fun a i => (a + (l ++ tail).getD i 0) &&& 0xFFFF) 0
      = ppChecksum l := by
  rw [checksum_fold_aux, ppChecksum]

theorem artifact_bits (B : List Nat) (level : Nat) (hN : B.length ≤ 40288) :
    ∀ j, j < 9 * B.length →
      bitAt (ppArtifact B level) j = (literalBits B).getD j false := by
  intro j hj
  rw [bitAt, ppArtifact_explicit]
  rw [List.getD_append_right _ _ _ _ (by simp)]
  rw [show 16 + j / 8 - ([0x50, 0x50, 1, 0,
       B.length % 4294967296 % 256, B.length % 4294967296 / 256 % 256,
       B.length % 4294967296 / 65536 % 256, B.length % 4294967296 / 16777216 % 256,
       (16 + (ppBody B).length) % 4294967296 % 256,
       (16 + (ppBody B).length) % 4294967296 / 256 % 256,
       (16 + (ppBody B).length) % 4294967296 / 65536 % 256,
       (16 + (ppBody B).length) % 4294967296 / 16777216 % 256,
       level % 256, ppDetectFiletype B,
       ppChecksum B % 256, ppChecksum B / 256 % 256] : List Nat).length = j / 8 by simp]
  rw [ppBody_full B hN, packAll]
  have hlen : (padBits (literalBits B)).length = 9 * B.length + (8 - 9 * B.length % 8) % 8 := by
    rw [padBits_length, literalBits_length]
  have hjb : j < 8 * (toBytes (padBits (literalBits B))).length := by
    rw [toBytes_length, hlen]
    omega
  rw [toBytes_testBit _ j hjb, padBits,
    List.getD_append _ _ _ _ (by rw [literalBits_length]; omega)]

/-- C1, amended.  With a fresh bit-writer state, inputs of at most 40288
bytes (the largest size below which the internal output allocation always
fits the all-literal token stream), a caller capacity at least the artifact
size and an output buffer at least as long as the input, compressing and
then decompressing recovers the input exactly, with no out-of-bounds reads
or writes on either side. -/
theorem c1_round_trip_amended (B out : List Nat) (level cap : Nat)
    (hne : B ≠ []) (hb : ∀ b ∈ B, b < 256) (hN : B.length ≤ 40288)
    (hcap : 16 + (ppBody B).length ≤ cap) (hout : B.length ≤ out.length) :
    (ppCompress ⟨0, 0⟩ B level cap).code = 0 ∧
    (ppDecompress (ppCompress ⟨0, 0⟩ B level cap).bytes out).code = 0 ∧
    (ppDecompress (ppCompress ⟨0, 0⟩ B level cap).bytes out).outLen = B.length ∧
    (ppDecompress (ppCompress ⟨0, 0⟩ B level cap).bytes out).buf.take B.length = B ∧
    (ppDecompress (ppCompress ⟨0, 0⟩ B level cap).bytes out).oobIn = false ∧
    (ppDecompress (ppCompress ⟨0, 0⟩ B level cap).bytes out).oobOut = false := by
  obtain ⟨hlen, hcode, hbytesfn⟩ := ppCompress_spec B level cap hne hb (by omega)
  have hart : (ppCompress ⟨0, 0⟩ B level cap).bytes = ppArtifact B level := hbytesfn hcap
  refine ⟨by rw [hcode, if_pos hcap], ?_⟩
  rw [hart]
  have hinplen : (ppArtifact B level).length = 16 + (ppBody B).length := ppArtifact_length B level
  have hbodylen : (ppBody B).length = (9 * B.length + 7) / 8 := by
    rw [ppBody_length]
    omega
  have h0 : (ppArtifact B level).getD 0 0 = 0x50 := by
    rw [ppArtifact_explicit, List.getD_append _ _ _ _ (by simp)]
    rfl
  have h1 : (ppArtifact B level).getD 1 0 = 0x50 := by
    rw [ppArtifact_explicit, List.getD_append _ _ _ _ (by simp)]
    rfl
  have h4 : (ppArtifact B level).getD 4 0 = B.length % 4294967296 % 256 := by
    rw [ppArtifact_explicit, List.getD_append _ _ _ _ (by simp)]
    rfl
  have h5 : (ppArtifact B level).getD 5 0 = B.length % 4294967296 / 256 % 256 := by
    rw [ppArtifact_explicit, List.getD_append _ _ _ _ (by simp)]
    rfl
  have h6 : (ppArtifact B level).getD 6 0 = B.length % 4294967296 / 65536 % 256 := by
    rw [ppArtifact_explicit, List.getD_append _ _ _ _ (by simp)]
    rfl
  have h7 : (ppArtifact B level).getD 7 0 = B.length % 4294967296 / 16777216 % 256 := by
    rw [ppArtifact_explicit, List.getD_append _ _ _ _ (by simp)]
    rfl
  have h14 : (ppArtifact B level).getD 14 0 = ppChecksum B % 256 := by
    rw [ppArtifact_explicit, List.getD_append _ _ _ _ (by simp)]
    rfl
  have h15 : (ppArtifact B level).getD 15 0 = ppChecksum B / 256 % 256 := by
    rw [ppArtifact_explicit, List.getD_append _ _ _ _ (by simp)]
    rfl
  have hmagic : readU16 (ppArtifact B level) 0 = 0x5050 := by
    rw [readU16, h0, h1]
  have husize : readU32 (ppArtifact B level) 4 = B.length := by
    rw [readU32, h4, h5, h6, h7]
    omega
  have hck14 : readU16 (ppArtifact B level) 14 = ppChecksum B := by
    rw [readU16, h14, h15, u16_decode]
    exact Nat.mod_eq_of_lt (ppChecksum_lt B)
  have hdl := decode_literals (ppArtifact B level) (ppArtifact_mem_lt B level) B.length B
    B.length ⟨⟨16, 0, 0, false⟩, 0, out, false⟩ 0
    ⟨by show (0:Nat) < 8; norm_num, by show 8 * (16 - 16) = 0 + 0; norm_num,
      by show (16:Nat) ≤ 16; norm_num, rfl,
      fun _ => by show (16:Nat) ≤ (ppArtifact B level).length; rw [hinplen]; omega⟩
    (by intro j hj
        rw [Nat.zero_add]
        exact artifact_bits B level hN j hj)
    hb
    (by show B.length = 0 + B.length; omega)
    (le_refl _)
    (by show 0 + B.length ≤ out.length; omega)
  obtain ⟨hop, hbufw, hoob2, hRF, hoobIn, hptr⟩ := hdl
  have hbufeq : (decodeLoop (ppArtifact B level) B.length B.length
      ⟨⟨16, 0, 0, false⟩, 0, out, false⟩).buf = B ++ out.drop B.length := by
    rw [hbufw, writeSeq_eq B out 0 (by omega)]
    simp
  have hptrle : (decodeLoop (ppArtifact B level) B.length B.length
      ⟨⟨16, 0, 0, false⟩, 0, out, false⟩).r.ptr ≤ (ppArtifact B level).length := by
    obtain ⟨havF, halignF, h16F, _, _⟩ := hRF
    rw [hinplen, hbodylen]
    omega
  have hoobInF : (decodeLoop (ppArtifact B level) B.length B.length
      ⟨⟨16, 0, 0, false⟩, 0, out, false⟩).r.oobIn = false := by
    rw [hoobIn, Bool.false_or]
    exact decide_eq_false (by omega)
  have hbuflen : (decodeLoop (ppArtifact B level) B.length B.length
      ⟨⟨16, 0, 0, false⟩, 0, out, false⟩).buf.length = out.length := by
    rw [hbufeq, List.length_append, List.length_drop]
    omega
  rw [ppDecompress, if_neg (by rw [hinplen]; omega), if_neg (by rw [hmagic]; norm_num)]
  dsimp only
  rw [husize, if_neg (by omega)]
  rw [hck14, hop, hbufeq]
  rw [checksum_fold B (out.drop B.length)]
  rw [if_neg (fun h => h rfl)]
  rw [hoob2, hoobInF]
  refine ⟨rfl, rfl, ?_, rfl, ?_⟩
  · show (B ++ out.drop B.length).take B.length = B
    rw [List.take_left]
  · show (false || decide ((B ++ out.drop B.length).length < B.length)) = false
    rw [Bool.false_or]
    refine decide_eq_false ?_
    rw [List.length_append, List.length_drop]
    omega

theorem artifact_getD_body (B : List Nat) (level k : Nat) :
    (ppArtifact B level).getD (16 + k) 0 = (ppBody B).getD k 0 := by
  rw [ppArtifact_explicit, List.getD_append_right _ _ _ _ (by simp)]
  congr 1
  simp

theorem artifact_magic (B : List Nat) (level : Nat) :
    readU16 (ppArtifact B level) 0 = 0x5050 := by
  have h0 : (ppArtifact B level).getD 0 0 = 0x50 := by
    rw [ppArtifact_explicit, List.getD_append _ _ _ _ (by simp)]
    rfl
  have h1 : (ppArtifact B level).getD 1 0 = 0x50 := by
    rw [ppArtifact_explicit, List.getD_append _ _ _ _ (by simp)]
    rfl
  rw [readU16, h0, h1]

theorem artifact_usize (B : List Nat) (level : Nat) (h : B.length < 4294967296) :
    readU32 (ppArtifact B level) 4 = B.length := by
  have h4 : (ppArtifact B level).getD 4 0 = B.length % 4294967296 % 256 := by
    rw [ppArtifact_explicit, List.getD_append _ _ _ _ (by simp)]
    rfl
  have h5 : (ppArtifact B level).getD 5 0 = B.length % 4294967296 / 256 % 256 := by
    rw [ppArtifact_explicit, List.getD_append _ _ _ _ (by simp)]
    rfl
  have h6 : (ppArtifact B level).getD 6 0 = B.length % 4294967296 / 65536 % 256 := by
    rw [ppArtifact_explicit, List.getD_append _ _ _ _ (by simp)]
    rfl
  have h7 : (ppArtifact B level).getD 7 0 = B.length % 4294967296 / 16777216 % 256 := by
    rw [ppArtifact_explicit, List.getD_append _ _ _ _ (by simp)]
    rfl
  rw [readU32, h4, h5, h6, h7]
  omega

theorem artifact_cksum (B : List Nat) (level : Nat) :
    readU16 (ppArtifact B level) 14 = ppChecksum B := by
  have h14 : (ppArtifact B level).getD 14 0 = ppChecksum B % 256 := by
    rw [ppArtifact_explicit, List.getD_append _ _ _ _ (by simp)]
    rfl
  have h15 : (ppArtifact B level).getD 15 0 = ppChecksum B / 256 % 256 := by
    rw [ppArtifact_explicit, List.getD_append _ _ _ _ (by simp)]
    rfl
  rw [readU16, h14, h15, u16_decode]
  exact Nat.mod_eq_of_lt (ppChecksum_lt B)

theorem checksum_fold_at (l tail : List Nat) (n : Nat) (h : n = l.length) :
    (List.range n).foldl (fun a i => (a + (l ++ tail).getD i 0) &&& 0xFFFF) 0
      = l.foldl (fun x b => (x + b) &&& 0xFFFF) 0 := by
  subst h
  exact checksum_fold_aux l tail 0

theorem ppDecompress_code (inp out xs : List Nat)
    (hbytes : ∀ x ∈ inp, x < 256)
    (h16 : 16 ≤ inp.length)
    (hmag : readU16 inp 0 = 0x5050)
    (hus : readU32 inp 4 = xs.length)
    (hout : xs.length ≤ out.length)
    (hbits : ∀ j, j < 9 * xs.length → bitAt inp j = (literalBits xs).getD j false)
    (hxs : ∀ x ∈ xs, x < 256) :
    (ppDecompress inp out).code
      = if ppChecksum xs ≠ readU16 inp 14 then -3 else 0 := by
  have hdl := decode_literals inp hbytes xs.length xs xs.length
    ⟨⟨16, 0, 0, false⟩, 0, out, false⟩ 0
    ⟨by show (0:Nat) < 8; norm_num, by show 8 * (16 - 16) = 0 + 0; norm_num,
      by show (16:Nat) ≤ 16; norm_num, rfl, fun _ => h16⟩
    (by intro j hj
        rw [Nat.zero_add]
        exact hbits j hj)
    hxs
    (by show xs.length = 0 + xs.length; omega)
    (le_refl _)
    (by show 0 + xs.length ≤ out.length; omega)
  obtain ⟨hop, hbufw, hoob2, hRF, hoobIn, hptr⟩ := hdl
  have hbufeq : (decodeLoop inp xs.length xs.length ⟨⟨16, 0, 0, false⟩, 0, out, false⟩).buf
      = xs ++ out.drop xs.length := by
    rw [hbufw, writeSeq_eq xs out 0 (by omega)]
    simp
  rw [ppDecompress, if_neg (by omega), if_neg (by rw [hmag]; norm_num)]
  dsimp only
  rw [hus, if_neg (by omega)]
  rw [hop, hbufeq, checksum_fold xs (out.drop xs.length)]
  split_ifs with h <;> rfl

/-- C1, counterexample.  On the 40321-byte input consisting of 40320 zero
bytes followed by `0xFF`, `pp_compress` reports success but its internal
allocation is one byte short of the packed all-literal stream, so the final
byte is silently dropped; the decoder then reads the truncated last literal
as `0x7F`, the checksum comparison fails, and `pp_decompress` returns `-3`
instead of reproducing the input. -/
theorem c1_roundtrip_cex :
    (ppCompress ⟨0, 0⟩ (List.replicate 40320 0 ++ [255]) 6 50000).code = 0 ∧
    (ppDecompress (ppCompress ⟨0, 0⟩ (List.replicate 40320 0 ++ [255]) 6 50000).bytes
        (List.replicate 40321 0)).code = -3 := by
  have hlenS : (List.replicate 40320 0 ++ [255] : List Nat).length = 40321 := by
    rw [List.length_append, List.length_replicate]
    rfl
  have hneS : (List.replicate 40320 0 ++ [255] : List Nat) ≠ [] := by
    intro h
    have := congrArg List.length h
    rw [hlenS] at this
    simp at this
  have hbS : ∀ b ∈ (List.replicate 40320 0 ++ [255] : List Nat), b < 256 := by
    intro b hbm
    rcases List.mem_append.1 hbm with h | h
    · rw [List.eq_of_mem_replicate h]
      norm_num
    · rw [List.mem_singleton.1 h]
      norm_num
  obtain ⟨hlenC, hcodeC, hbytesC⟩ :=
    ppCompress_spec (List.replicate 40320 0 ++ [255]) 6 50000 hneS hbS (by rw [hlenS]; norm_num)
  have hbodylenS : (ppBody (List.replicate 40320 0 ++ [255])).length = 45361 := by
    rw [ppBody_length, hlenS]
    omega
  have hcapS : 16 + (ppBody (List.replicate 40320 0 ++ [255])).length ≤ 50000 := by
    rw [hbodylenS]
    norm_num
  have hartS : (ppCompress ⟨0, 0⟩ (List.replicate 40320 0 ++ [255]) 6 50000).bytes
      = ppArtifact (List.replicate 40320 0 ++ [255]) 6 := hbytesC hcapS
  refine ⟨by rw [hcodeC, if_pos hcapS], ?_⟩
  rw [hartS]
  have hinplenS : (ppArtifact (List.replicate 40320 0 ++ [255]) 6).length = 45377 := by
    rw [ppArtifact_length, hbodylenS]
  have hbodyS : ppBody (List.replicate 40320 0 ++ [255])
      = (packAll (literalBits (List.replicate 40320 0 ++ [255]))).take 45361 := by
    rw [ppBody, hlenS]
  have hlits : literalBits (List.replicate 40320 0 ++ [255])
      = List.replicate 362880 false
        ++ [false, true, true, true, true, true, true, true, true] := by
    rw [literalBits_append, literalBits_replicate_zero]
    rfl
  have hmagicS : readU16 (ppArtifact (List.replicate 40320 0 ++ [255]) 6) 0 = 0x5050 :=
    artifact_magic _ 6
  have husizeS : readU32 (ppArtifact (List.replicate 40320 0 ++ [255]) 6) 4 = 40321 := by
    rw [artifact_usize _ 6 (by rw [hlenS]; norm_num), hlenS]
  have hckS : ppChecksum (List.replicate 40320 0 ++ [255]) = 255 := by
    have s3 : (List.replicate 40320 (0:Nat)).sum = 40320 • (0:Nat) := by
      rw [List.sum_replicate]
    rw [ppChecksum_eq, List.sum_append, s3, smul_zero, Nat.zero_add]
    rfl
  have hck14S : readU16 (ppArtifact (List.replicate 40320 0 ++ [255]) 6) 14 = 255 := by
    rw [artifact_cksum, hckS]
  have hxlen : (List.replicate 40320 0 ++ [127] : List Nat).length = 40321 := by
    rw [List.length_append, List.length_replicate]
    rfl
  have hbit : ∀ j, j < 362889 →
      bitAt (ppArtifact (List.replicate 40320 0 ++ [255]) 6) j
        = (literalBits (List.replicate 40320 0 ++ [127])).getD j false := by
    intro j hj
    have hlitsX : literalBits (List.replicate 40320 0 ++ [127])
        = List.replicate 362880 false
          ++ [false, true, true, true, true, true, true, true, false] := by
      rw [literalBits_append, literalBits_replicate_zero]
      rfl
    rw [hlitsX, bitAt, artifact_getD_body, hbodyS]
    rcases Nat.lt_or_ge j 362888 with hj8 | hj8
    · rw [getD_take_lt _ _ _ _ (by omega), packAll]
      have hjb : j < 8 * (toBytes (padBits
          (literalBits (List.replicate 40320 0 ++ [255])))).length := by
        rw [toBytes_length, padBits_length, literalBits_length, hlenS]
        omega
      rw [toBytes_testBit _ j hjb, padBits,
        List.getD_append _ _ _ _ (by rw [literalBits_length, hlenS]; omega), hlits]
      rcases Nat.lt_or_ge j 362880 with hj0 | hj0
      · rw [List.getD_append _ _ _ _ (by rw [List.length_replicate]; omega),
          List.getD_append _ _ _ _ (by rw [List.length_replicate]; omega)]
      · rw [List.getD_append_right _ _ _ _ (by rw [List.length_replicate]; omega),
          List.getD_append_right _ _ _ _ (by rw [List.length_replicate]; omega),
          List.length_replicate]
        have hk : j - 362880 < 8 := by omega
        set k := j - 362880 with hkdef
        interval_cases k <;> rfl
    · have hj' : j = 362888 := by omega
      subst hj'
      have hzero : ((packAll (literalBits (List.replicate 40320 0 ++ [255]))).take
          45361).getD (362888 / 8) 0 = 0 := by
        apply List.getD_eq_default
        rw [List.length_take, packAll_length, literalBits_length, hlenS]
        omega
      rw [hzero, Nat.zero_testBit]
      rw [List.getD_append_right _ _ _ _ (by rw [List.length_replicate]; omega),
        List.length_replicate]
      rfl
  have h16S : (16:Nat) ≤ (ppArtifact (List.replicate 40320 0 ++ [255]) 6).length := by
    rw [hinplenS]
    norm_num
  have husX : readU32 (ppArtifact (List.replicate 40320 0 ++ [255]) 6) 4
      = (List.replicate 40320 0 ++ [127] : List Nat).length := by
    rw [husizeS, hxlen]
  have houtX : (List.replicate 40320 0 ++ [127] : List Nat).length
      ≤ (List.replicate 40321 0 : List Nat).length := by
    rw [hxlen, List.length_replicate]
  have hbitsX : ∀ j, j < 9 * (List.replicate 40320 0 ++ [127] : List Nat).length →
      bitAt (ppArtifact (List.replicate 40320 0 ++ [255]) 6) j
        = (literalBits (List.replicate 40320 0 ++ [127])).getD j false := by
    intro j hj
    exact hbit j (by rw [hxlen] at hj; omega)
  have hxsX : ∀ x ∈ (List.replicate 40320 0 ++ [127] : List Nat), x < 256 := by
    intro x hx
    rcases List.mem_append.1 hx with h | h
    · rw [List.eq_of_mem_replicate h]
      norm_num
    · rw [List.mem_singleton.1 h]
      norm_num
  have hckX : ppChecksum (List.replicate 40320 0 ++ [127]) = 127 := by
    have s3 : (List.replicate 40320 (0:Nat)).sum = 40320 • (0:Nat) := by
      rw [List.sum_replicate]
    rw [ppChecksum_eq, List.sum_append, s3, smul_zero, Nat.zero_add]
    rfl
  rw [ppDecompress_code (ppArtifact (List.replicate 40320 0 ++ [255]) 6)
    (List.replicate 40321 0) (List.replicate 40320 0 ++ [127])
    (ppArtifact_mem_lt _ 6) h16S hmagicS husX houtX hbitsX hxsX]
  rw [hckX, hck14S, if_pos (by norm_num)]

/-- Witness for C1's amended round-trip at the one-byte input [0x41] with
level 6, caller capacity 2000 and a 2-byte output buffer. -/
theorem c1_round_trip_amended_witness :
    (([0x41] : List Nat) ≠ [] ∧ (∀ b ∈ ([0x41] : List Nat), b < 256) ∧
     ([0x41] : List Nat).length ≤ 40288 ∧
     16 + (ppBody [0x41]).length ≤ 2000 ∧
     ([0x41] : List Nat).length ≤ ([0, 0] : List Nat).length) ∧
    ((ppCompress ⟨0, 0⟩ [0x41] 6 2000).code = 0 ∧
     (ppDecompress (ppCompress ⟨0, 0⟩ [0x41] 6 2000).bytes [0, 0]).code = 0 ∧
     (ppDecompress (ppCompress ⟨0, 0⟩ [0x41] 6 2000).bytes [0, 0]).outLen
        = ([0x41] : List Nat).length ∧
     (ppDecompress (ppCompress ⟨0, 0⟩ [0x41] 6 2000).bytes [0, 0]).buf.take
        ([0x41] : List Nat).length = [0x41] ∧
     (ppDecompress (ppCompress ⟨0, 0⟩ [0x41] 6 2000).bytes [0, 0]).oobIn = false ∧
     (ppDecompress (ppCompress ⟨0, 0⟩ [0x41] 6 2000).bytes [0, 0]).oobOut = false) :=
  ⟨⟨by decide, by decide, by decide, by decide, by decide⟩,
   c1_round_trip_amended [0x41] [0, 0] 6 2000 (by decide) (by decide) (by decide)
     (by decide) (by decide)⟩
